import Mathlib

/-!
Verification of the loog revision engine against its specification.

The development shallowly embeds the Go sources:
  * pkg/diffmap/diff.go, pkg/diffmap/apply.go — the diff/patch algebra,
  * internal/service/tracker_service.go — Commit / Restore / patchDistance,
  * internal/store/bbolt (claimNextRevision, SaveSnapshot) — revision allocation,
  * internal/service/cache.go — the TTL state cache,
  * internal/store/models.go — RevisionID rendering,
  * internal/util/diffmap.go — ExtractResourceVersion.

JSON-shaped Go values (`map[string]any`) are modelled by the mutual inductive
type `Value` / `Entries` / `VList` below.  A Go map is represented canonically
as an association list whose keys are strictly sorted (predicate `Entries.wf`);
structural equality of canonical representations coincides with Go's
order-insensitive `reflect.DeepEqual` on maps.  Go `float64` values are not
modelled (floating point is outside the embedding); Go `int` and `int64` are
merged into a single mathematical integer constructor, which does not affect
any of the verified properties.
-/

namespace Loog

mutual
/-- A JSON-shaped value: one branch of Go's `any` as used by diffmap. -/
inductive Value where
  | str (s : String) : Value
  | int (n : Int) : Value
  | bool (b : Bool) : Value
  | null : Value
  | map (m : Entries) : Value
  | list (l : VList) : Value
  deriving DecidableEq
/-- The entries of a Go `map[string]any`, as an association list. -/
inductive Entries where
  | nil : Entries
  | cons (k : String) (v : Value) (rest : Entries) : Entries
  deriving DecidableEq
/-- An ordered Go `[]any` list of values. -/
inductive VList where
  | nil : VList
  | cons (v : Value) (rest : VList) : VList
  deriving DecidableEq
end

/-- Key lookup, i.e. Go `b[k]` returning `(value, ok)`. -/
def Entries.lookup : Entries → String → Option Value
  | .nil, _ => none
  | .cons k v rest, key => if k = key then some v else rest.lookup key

/-- Go `len(m) == 0`. -/
def Entries.isEmpty : Entries → Bool
  | .nil => true
  | .cons _ _ _ => false

def Entries.append : Entries → Entries → Entries
  | .nil, b => b
  | .cons k v rest, b => .cons k v (rest.append b)

/-- Kernel-computable strict order on keys: lexicographic on the character
data, equivalent to the `String` order (used only to fix one canonical
layout for the unordered Go maps). -/
def keyLtB (a b : String) : Bool := decide (a.data < b.data)

/-- Go map assignment `dst[k] = v`, determinized to keep canonical
(key-sorted) representations canonical: replaces the first binding of `k`,
or inserts at the sorted position. -/
def Entries.insertGo : Entries → String → Value → Entries
  | .nil, k, v => .cons k v .nil
  | .cons k1 v1 rest, k, v =>
    if keyLtB k k1 then .cons k v (.cons k1 v1 rest)
    else if k = k1 then .cons k v rest
    else .cons k1 v1 (rest.insertGo k v)

/-- Go `delete(dst, k)`: removes every binding of `k` (a Go map has at most
one). -/
def Entries.erase : Entries → String → Entries
  | .nil, _ => .nil
  | .cons k1 v1 rest, k =>
    if k1 = k then rest.erase k else .cons k1 v1 (rest.erase k)

/-- `equalFast` from pkg/diffmap/diff.go: scalar values compare by type and
value, `nil` only equals `nil`, two maps compare equal only when both are
empty, and any other pair (here: lists) falls back to `reflect.DeepEqual`,
which on canonical representations is structural equality. -/
def equalFast (a b : Value) : Bool :=
  match a, b with
  | .str sa, .str sb => sa = sb
  | .str _, _ => false
  | .int na, .int nb => na = nb
  | .int _, _ => false
  | .bool ba, .bool bb => ba = bb
  | .bool _, _ => false
  | .null, .null => true
  | .null, _ => false
  | .map ma, .map mb => ma.isEmpty && mb.isEmpty
  | .map _, _ => false
  | .list la, .list lb => la = lb
  | .list _, _ => false

/-- The second loop of `diffRecursive` (diff.go): every key of `b` that is
absent from `a` is emitted with its new value. -/
def diffRecursiveAdd (a : Entries) : Entries → Entries
  | .nil => .nil
  | .cons k vb rest =>
    match a.lookup k with
    | some _ => diffRecursiveAdd a rest
    | none => .cons k vb (diffRecursiveAdd a rest)

/-- The first loop of `diffRecursive` (diff.go): for every key of `a`,
emit a deletion (`null`) when the key left `b`, nothing when the values are
`equalFast`-equal, a recursive sub-diff when both values are maps (omitted
when empty), and otherwise the new value. -/
def diffRecursiveDel : Entries → Entries → Entries
  | .nil, _ => .nil
  | .cons k va rest, b =>
    let tail := diffRecursiveDel rest b
    match b.lookup k with
    | none => .cons k .null tail
    | some vb =>
      if equalFast va vb then tail
      else
        match va, vb with
        | .map ma, .map mb =>
          let sub := (diffRecursiveDel ma mb).append (diffRecursiveAdd ma mb)
          if sub.isEmpty then tail else .cons k (.map sub) tail
        | _, _ => .cons k vb tail
  termination_by structural a => a

/-- `diffRecursive` (diff.go): both loops; the emission order into the Go
output map is irrelevant, the concatenation below fixes one order. -/
def diffRecursive (a b : Entries) : Entries :=
  (diffRecursiveDel a b).append (diffRecursiveAdd a b)

/-- `Diff` (diff.go): returns Go `nil` (here `none`) when both maps are
empty or the recursive diff is empty. -/
def Diff (a b : Entries) : Option Entries :=
  if a.isEmpty && b.isEmpty then none
  else
    let d := diffRecursive a b
    if d.isEmpty then none else some d

/-- `applyRecursive` (apply.go), as a pure fold over the change set:
`null` deletes the key, a map value recurses (allocating an empty map when
the destination value is absent or not a map), anything else is assigned. -/
def applyRecursive (dst : Entries) (chg : Entries) : Entries :=
  match chg with
  | .nil => dst
  | .cons k v chgRest =>
    let dst2 :=
      match v with
      | .null => dst.erase k
      | .map m =>
        let subDst :=
          match dst.lookup k with
          | some (.map m0) => m0
          | _ => .nil
        dst.insertGo k (.map (applyRecursive subDst m))
      | _ => dst.insertGo k v
    applyRecursive dst2 chgRest
  termination_by structural chg

/-- `Apply` (apply.go): a `nil` or empty change set leaves `dst` unchanged.
(The in-place mutation of the Go original is modelled by returning the new
map; `Diff` never emits a typed-nil sub-map, so that branch of the Go
switch is unreachable from diff output.) -/
def Apply (dst : Entries) (chg : Option Entries) : Entries :=
  match chg with
  | none => dst
  | some c => if c.isEmpty then dst else applyRecursive dst c

end Loog

namespace Loog

/-- `loLtB lo k` holds when the optional strict lower bound `lo` lies below
the key `k`. -/
def loLtB : Option String → String → Bool
  | none, _ => true
  | some l, k => keyLtB l k

mutual
/-- Canonical well-formedness of a value: every map inside it (also inside
lists) has strictly sorted keys.  This is the representation invariant under
which association lists model Go maps up to structural equality. -/
def Value.wf : Value → Bool
  | .map m => Entries.wfFrom none m
  | .list l => VList.wf l
  | _ => true
  termination_by structural v => v
/-- Keys strictly ascend and all exceed the lower bound `lo`; all values
are well-formed. -/
def Entries.wfFrom : Option String → Entries → Bool
  | _, .nil => true
  | lo, .cons k v rest => loLtB lo k && v.wf && Entries.wfFrom (some k) rest
  termination_by structural lo es => es
def VList.wf : VList → Bool
  | .nil => true
  | .cons v rest => v.wf && rest.wf
  termination_by structural l => l
end

/-- Canonical well-formedness of a map. -/
def Entries.wf (es : Entries) : Bool := Entries.wfFrom none es

/-- `true` unless the value is the explicit `null`. -/
def Value.notNull : Value → Bool
  | .null => false
  | _ => true

mutual
/-- No explicit `null` stored as the value of any map key, at any depth of
nested maps.  (Values inside lists are never recursed into by diff/apply,
so they are unconstrained.) -/
def Value.nullFree : Value → Bool
  | .map m => m.nullFree
  | _ => true
  termination_by structural v => v
def Entries.nullFree : Entries → Bool
  | .nil => true
  | .cons _ v rest => v.notNull && v.nullFree && rest.nullFree
  termination_by structural es => es
end

/-- Pairwise-distinct keys (what being a Go map guarantees). -/
def Entries.nodupKeys : Entries → Bool
  | .nil => true
  | .cons k _ rest => (rest.lookup k).isNone && rest.nodupKeys

/-- The sub-destination that apply.go recurses into for key `k`: the existing
map value of `dst[k]`, or a fresh empty map. -/
def subFor (dst : Entries) (k : String) : Entries :=
  match dst.lookup k with
  | some (.map m0) => m0
  | _ => .nil

/-- One iteration of the apply.go loop, applied to the binding `(k, v)`. -/
def applyStep (dst : Entries) (k : String) (v : Value) : Entries :=
  match v with
  | .null => dst.erase k
  | .map m => dst.insertGo k (.map (applyRecursive (subFor dst k) m))
  | _ => dst.insertGo k v

/-- What `applyRecursive dst chg` holds at key `k`, as a function of the
change-set entry for `k`. -/
def applyLookupSpec (dst : Entries) (k : String) : Option Value → Option Value
  | none => dst.lookup k
  | some .null => none
  | some (.map m) => some (.map (applyRecursive (subFor dst k) m))
  | some v => some v

mutual
/-- What apply.go needs from the values of a change set: lists are canonical
and map values recursively satisfy the same condition.  (Unlike `wf`, the
keys of a change set need not be sorted: the diff loops emit them in map
iteration order.) -/
def Value.chgOK : Value → Bool
  | .map m => m.chgWF
  | .list l => l.wf
  | _ => true
  termination_by structural v => v
def Entries.chgWF : Entries → Bool
  | .nil => true
  | .cons _ v rest => v.chgOK && rest.chgWF
  termination_by structural es => es
end

/-- The entry (if any) that the first diff loop emits for a key of `a` whose
value there is `va`, given the value `b` holds at that key. -/
def delDecision (va : Value) : Option Value → Option Value
  | none => some .null
  | some vb =>
    if equalFast va vb then none
    else
      match va, vb with
      | .map ma, .map mb =>
        let sub := diffRecursive ma mb
        if sub.isEmpty then none else some (.map sub)
      | _, _ => some vb

/-- Sample objects used to instantiate hypothesis-bearing theorems: the
spec §8 scenario S1 pair `a = {a:1, b:{c:false}}`, `b = {a:1, b:{c:true}}`. -/
def sampleA : Entries :=
  .cons "a" (.int 1) (.cons "b" (.map (.cons "c" (.bool false) .nil)) .nil)

def sampleB : Entries :=
  .cons "a" (.int 1) (.cons "b" (.map (.cons "c" (.bool true) .nil)) .nil)

/-- A stored revision record, as written by tracker_service.go: either a
full `store.Snapshot` (PreviousID + Object) or a `store.Patch` (PreviousID +
DiffMap, `none` when `Diff` returned Go nil).  Timestamps are not modelled.
One uid's store content is a `List Rec` whose index is the RevisionID: the
bbolt store assigns 0, 1, 2, … in write order (claimNextRevision), so
`Get(uid, id)` is list indexing and `GetLatestRevision` is `length - 1`
(`NotFound` when the list is empty). -/
inductive Rec where
  | snap (previousID : Nat) (object : Entries) : Rec
  | patch (previousID : Nat) (diff : Option Entries) : Rec
  deriving DecidableEq

/-- `Store.Get` for one uid. -/
def getRec (recs : List Rec) (id : Nat) : Option Rec := recs.get? id

/-- The loop of `TrackerService.Restore` (tracker_service.go): walk
backwards accumulating the patch chain until a snapshot, then apply the
chain earliest-first.  The Go loop relies on `PreviousID` strictly
decreasing; the fuel argument makes that termination explicit (`rev + 1`
steps suffice in every reachable store) and turns the broken-chain cases
(`NotFound`, or a chain that does not descend) into `none`, matching the
"no base snapshot found" error. -/
def restoreAux (recs : List Rec) : Nat → Nat → List (Option Entries) → Option Entries
  | 0, _, _ => none
  | fuel + 1, cur, chain =>
    match getRec recs cur with
    | none => none
    | some (.snap _ obj) => some (chain.foldl Apply obj)
    | some (.patch prev d) => restoreAux recs fuel prev (d :: chain)

/-- `TrackerService.Restore` for one uid (the returned record's Object). -/
def Restore (recs : List Rec) (revision : Nat) : Option Entries :=
  restoreAux recs (revision + 1) revision []

/-- The loop of `TrackerService.patchDistance`: count patches walked from
`cur` down to the nearest snapshot (same fuel treatment as `restoreAux`). -/
def patchDistanceAux (recs : List Rec) : Nat → Nat → Option Nat
  | 0, _ => none
  | fuel + 1, cur =>
    match getRec recs cur with
    | none => none
    | some (.snap _ _) => some 0
    | some (.patch prev _) => (patchDistanceAux recs fuel prev).map (· + 1)

/-- `TrackerService.patchDistance` for one uid. -/
def patchDistance (recs : List Rec) (from0 : Nat) : Option Nat :=
  patchDistanceAux recs (from0 + 1) from0

/-- `TrackerService.Commit` (tracker_service.go) for one uid, with
`K = snapshotEvery` (the constructor guarantees `K ≥ 1`): on `NotFound`
write a first Snapshot (store assigns ID 0, PreviousID stays 0); otherwise
compute the patch distance from the latest revision, write a Snapshot when
`chain >= K-1`, else restore the latest state and write a Patch carrying
`Diff(base, newObject)`.  Returns the new store content and the assigned
RevisionID; `none` models a propagated store error. -/
def Commit (K : Nat) (recs : List Rec) (newObject : Entries) :
    Option (List Rec × Nat) :=
  if recs.isEmpty then
    some (recs ++ [.snap 0 newObject], 0)
  else
    let latest := recs.length - 1
    match patchDistance recs latest with
    | none => none
    | some chain =>
      if K - 1 ≤ chain then
        some (recs ++ [.snap latest newObject], recs.length)
      else
        match Restore recs latest with
        | none => none
        | some base =>
          some (recs ++ [.patch latest (Diff base newObject)], recs.length)

/-- A sequence of Commits for one uid, threading the store content. -/
def commitList (K : Nat) (s : List Rec) : List Entries → Option (List Rec)
  | [] => some s
  | o :: os =>
    match Commit K s o with
    | none => none
    | some (s2, _) => commitList K s2 os

/-- Every patch record points at the revision right below it (true in every
store the tracker writes). -/
def patchPrevOK (recs : List Rec) : Prop :=
  ∀ i prev d, getRec recs i = some (.patch prev d) → prev + 1 = i

/-- The record at revision `i` is a Snapshot exactly when `i % K = 0`. -/
def snapCadence (K : Nat) (recs : List Rec) : Prop :=
  ∀ i, i < recs.length →
    ((∃ p o, getRec recs i = some (.snap p o)) ↔ i % K = 0)

/-- Every already-committed revision restores to the object committed for
it. -/
def restoreOK (recs : List Rec) (objs : List Entries) : Prop :=
  ∀ r, r < objs.length → Restore recs r = objs.get? r

/-- A canonical object with no explicit nulls: the objects for which the
diff/apply round-trip is exact. -/
def wfn (o : Entries) : Prop := o.wf = true ∧ o.nullFree = true

/-- `ExtractResourceVersion` (internal/util/diffmap.go): the
`metadata.resourceVersion` field of an object when present and a string
(the Go `(string, bool)` pair becomes an `Option`). -/
def ExtractResourceVersion (objectAsMap : Entries) : Option String :=
  match objectAsMap.lookup "metadata" with
  | some (.map metadataMap) =>
    match metadataMap.lookup "resourceVersion" with
    | some (.str s) => some s
    | _ => none
  | _ => none

/-- The errors of the dedup-aware Commit: the typed
`DuplicateResourceVersionError{rev, resourceVersion}` and a propagated
store error. -/
inductive CommitError where
  | duplicateResourceVersion (rev : Nat) (resourceVersion : String) : CommitError
  | storeError : CommitError
  deriving DecidableEq

/-- Modelled from the spec: the duplicate-suppression step of the current
`TrackerService.Commit` is not among the sources under verification — only
its caller (cmd/loog/main.go, which matches on
`service.DuplicateResourceVersionError`) and `util.ExtractResourceVersion`
are — so this step follows spec §4.4 Commit, steps 2–3: obtain the previous
materialized state (here always via `Restore(uid, latest)`, the cache-free
path; the cache is an optimization that §4.3 requires to preserve all
functional guarantees); if both the previous and the new object carry a
`metadata.resourceVersion` string and they are equal, fail with
`DuplicateResourceVersion{rev, resourceVersion}` and write no new revision;
otherwise proceed exactly as `Commit`. -/
def CommitWithDedup (K : Nat) (recs : List Rec) (newObject : Entries) :
    Except CommitError (List Rec × Nat) :=
  if recs.isEmpty then
    match Commit K recs newObject with
    | some res => .ok res
    | none => .error .storeError
  else
    match Restore recs (recs.length - 1) with
    | none => .error .storeError
    | some prev =>
      match ExtractResourceVersion prev, ExtractResourceVersion newObject with
      | some rv1, some rv2 =>
        if rv1 = rv2 then
          .error (.duplicateResourceVersion (recs.length - 1) rv1)
        else
          match Commit K recs newObject with
          | some res => .ok res
          | none => .error .storeError
      | _, _ =>
        match Commit K recs newObject with
        | some res => .ok res
        | none => .error .storeError

/-- An object carrying `metadata.resourceVersion = "42"`, for witnesses. -/
def sampleRV : Entries :=
  .cons "metadata" (.map (.cons "resourceVersion" (.str "42") .nil)) .nil

/-- The per-uid state of the bbolt store: the durable `latest` bucket value
(the 8-byte big-endian next-revision counter), the durable records in write
order with their assigned RevisionIDs, and the in-memory
`nextRevisionCounter` map entry. -/
structure StoreState where
  latestDur : Option Nat
  recsDur : List (Nat × Rec)
  counterMem : Option Nat
  deriving DecidableEq

/-- A store with no writes for this uid. -/
def emptyStore : StoreState := ⟨none, [], none⟩

/-- `claimNextRevision` (bbolt): read `latest[uid]` treating absence as 0,
assign that value as the new RevisionID, and write back `value + 1`
(uint64 arithmetic, wrapping at 2^64).  Returns (assigned id, new counter
value). -/
def claimNextRevision (latestVal : Option Nat) : Nat × Nat :=
  let next := latestVal.getD 0
  (next, (next + 1) % 2 ^ 64)

/-- Where a `SaveSnapshot`/`SavePatch` transaction can fail, following the
Go control flow (bbolt operations.go): `failLatestPut` is an error from
`latest.Put` inside `claimNextRevision`, which returns before the
in-memory counter is touched; `failAfterClaim` covers the codec `Marshal`
and record/index `Put` errors, all of which happen after
`claimNextRevision` has already mutated the in-memory counter. -/
inductive FailPoint where
  | ok : FailPoint
  | failLatestPut : FailPoint
  | failAfterClaim : FailPoint
  deriving DecidableEq

/-- One `SaveSnapshot`/`SavePatch` call (both share the claim/record/index
structure) under `db.Update`: on any error the transaction rolls back all
durable writes, but the Go-map mutation of the in-memory counter performed
inside the transaction body survives. -/
def saveRecord (fp : FailPoint) (s : StoreState) (body : Rec) :
    StoreState × Option Nat :=
  match fp with
  | .failLatestPut => (s, none)
  | .failAfterClaim =>
    let nxt := (claimNextRevision s.latestDur).2
    ({ s with counterMem := some nxt }, none)
  | .ok =>
    let rev := (claimNextRevision s.latestDur).1
    let nxt := (claimNextRevision s.latestDur).2
    ({ latestDur := some nxt,
       recsDur := s.recsDur ++ [(rev, body)],
       counterMem := some nxt }, some rev)

/-- A sequence of successful saves, collecting the assigned RevisionIDs. -/
def saveSeq : List Rec → StoreState → StoreState × List Nat
  | [], s => (s, [])
  | b :: rest, s =>
    let step := saveRecord .ok s b
    let cont := saveSeq rest step.1
    (cont.1, step.2.toList ++ cont.2)

/-- cache.go constants, in nanoseconds of `time.Duration`. -/
def ttlBase : Int := 40 * 1000000000

def ttlHitBonus : Int := 4 * 1000000000

def maxTrackedEntries : Nat := 100000

/-- A cache entry (`trackerState` in cache.go): the materialized object,
its revision, the last-read wall clock in unix nanoseconds (int64), and
the hit counter (uint32). -/
structure trackerState where
  obj : Entries
  rev : Nat
  lastRead : Int
  hitCount : Nat
  deriving DecidableEq

/-- Two's-complement wrap-around of an integer into the int64 range, i.e.
Go's arithmetic on `time.Duration`. -/
def wrap64 (n : Int) : Int := (n + 2 ^ 63) % 2 ^ 64 - 2 ^ 63

/-- `time.Time.Sub` saturates at the `Duration` (int64) bounds. -/
def satSub (a b : Int) : Int :=
  let d := a - b
  if d > 2 ^ 63 - 1 then 2 ^ 63 - 1
  else if d < -(2 ^ 63) then -(2 ^ 63)
  else d

/-- Go-map lookup in the cache. -/
def cacheLookup : List (String × trackerState) → String → Option trackerState
  | [], _ => none
  | (k, e) :: rest, uid => if k = uid then some e else cacheLookup rest uid

/-- Pairwise-distinct cache keys (what being a Go map guarantees). -/
def cacheNodupKeys : List (String × trackerState) → Bool
  | [] => true
  | (k, _) :: rest => (cacheLookup rest k).isNone && cacheNodupKeys rest

/-- `evictCold` (cache.go): one janitor sweep.  For each entry,
`age := now.Sub(lastRead)` and
`ttl := ttlBase + time.Duration(hitCount) * ttlHitBonus` — the latter in
wrapping int64 arithmetic; if `age > ttl` the entry is deleted, otherwise
its hit counter is halved (`hc/2`, integer division; the Go guard
`if hc > 0` changes nothing since `0/2 = 0`). -/
def evictCold (now : Int) (data : List (String × trackerState)) :
    List (String × trackerState) :=
  data.filterMap fun e =>
    let age := satSub now e.2.lastRead
    let ttl := wrap64 (ttlBase + wrap64 ((e.2.hitCount : Int) * ttlHitBonus))
    if age > ttl then none
    else some (e.1, { e.2 with hitCount := e.2.hitCount / 2 })

/-- Go map assignment for the cache: replace the binding if present, else
add it. -/
def cacheInsert : List (String × trackerState) → String → trackerState →
    List (String × trackerState)
  | [], uid, ts => [(uid, ts)]
  | (k, e) :: rest, uid, ts =>
    if k = uid then (uid, ts) :: rest else (k, e) :: cacheInsert rest uid ts

/-- `set` (cache.go): insert or overwrite only while the entry count is
strictly below `maxTrackedEntries`; otherwise leave the map unchanged. -/
def cacheSet (data : List (String × trackerState)) (uid : String)
    (ts : trackerState) : List (String × trackerState) :=
  if data.length < maxTrackedEntries then cacheInsert data uid ts else data

/-- The sixteen lowercase hexadecimal digit characters, by value. -/
def hexDigitChar : Nat → Char
  | 0 => Char.ofNat 48
  | 1 => Char.ofNat 49
  | 2 => Char.ofNat 50
  | 3 => Char.ofNat 51
  | 4 => Char.ofNat 52
  | 5 => Char.ofNat 53
  | 6 => Char.ofNat 54
  | 7 => Char.ofNat 55
  | 8 => Char.ofNat 56
  | 9 => Char.ofNat 57
  | 10 => Char.ofNat 97
  | 11 => Char.ofNat 98
  | 12 => Char.ofNat 99
  | 13 => Char.ofNat 100
  | 14 => Char.ofNat 101
  | 15 => Char.ofNat 102
  | _ => Char.ofNat 63

/-- The numeric value of a lowercase hexadecimal digit character. -/
def hexCharVal (c : Char) : Nat :=
  if c.toNat ≥ 97 then c.toNat - 87 else c.toNat - 48

/-- The set of characters a lowercase hexadecimal rendering may use. -/
def hexAlphabet : List Char :=
  [Char.ofNat 48, Char.ofNat 49, Char.ofNat 50, Char.ofNat 51,
   Char.ofNat 52, Char.ofNat 53, Char.ofNat 54, Char.ofNat 55,
   Char.ofNat 56, Char.ofNat 57, Char.ofNat 97, Char.ofNat 98,
   Char.ofNat 99, Char.ofNat 100, Char.ofNat 101, Char.ofNat 102]

/-- The little-endian base-16 digits of `n`: the division chain of the
`fmt` integer formatter, with enough fuel to terminate (`n` halves at
least every step, so `n + 1` steps always reach 0). -/
def hexDigitsAux : Nat → Nat → List Nat
  | 0, _ => []
  | fuel + 1, n => if n = 0 then [] else n % 16 :: hexDigitsAux fuel (n / 16)

/-- The big-endian hexadecimal digits of `id` (empty for 0; the `%04x`
padding below supplies the digits of 0). -/
def hexChars (id : Nat) : List Char :=
  ((hexDigitsAux (id + 1) id).reverse).map hexDigitChar

/-- `RevisionID.String` (internal/store/models.go):
`fmt.Sprintf` with the `%04x` verb — the value in lowercase hexadecimal,
left-padded with zeros to a width of at least four characters. -/
def revisionIDString (id : Nat) : String :=
  let ds := hexChars id
  String.mk (List.replicate (4 - ds.length) (Char.ofNat 48) ++ ds)

/-- The numeric value of a big-endian string of hexadecimal digits. -/
def hexValue (cs : List Char) : Nat :=
  cs.foldl (fun acc c => 16 * acc + hexCharVal c) 0

/-- Plain structural induction over `Entries` that does not descend into
values (the mutual recursor would demand motives for all three types). -/
theorem Entries.recE {motive : Entries → Prop} (hnil : motive .nil)
    (hcons : ∀ k v rest, motive rest → motive (.cons k v rest)) :
    ∀ es, motive es
  | .nil => hnil
  | .cons k v rest => hcons k v rest (recE hnil hcons rest)

section BasicLemmas

open Entries

theorem keyLtB_iff {a b : String} : keyLtB a b = true ↔ a < b := by
  rw [show keyLtB a b = decide (a.data < b.data) from rfl, decide_eq_true_eq]
  exact String.lt_iff_toList_lt.symm

theorem loLtB_some {l k : String} : loLtB (some l) k = true ↔ l < k := by
  rw [show loLtB (some l) k = keyLtB l k from rfl]
  exact keyLtB_iff

theorem keyLtB_self (a : String) : keyLtB a a = false := by
  cases h : keyLtB a a
  · rfl
  · exact absurd (keyLtB_iff.mp h) (lt_irrefl a)

theorem isEmpty_iff_nil (es : Entries) : es.isEmpty = true ↔ es = .nil := by
  cases es <;> simp [Entries.isEmpty]

theorem lookup_insertGo_self (es : Entries) (k : String) (v : Value) :
    (es.insertGo k v).lookup k = some v := by
  induction es using Entries.recE with
  | hnil => simp [insertGo, lookup]
  | hcons k1 v1 rest ih =>
    by_cases h1 : keyLtB k k1 = true
    · simp [insertGo, h1, lookup]
    · by_cases h2 : k = k1
      · simp [insertGo, h1, h2, lookup, keyLtB_self]
      · simp [insertGo, h1, h2, lookup, Ne.symm h2, ih]

theorem lookup_insertGo_ne (es : Entries) (k k2 : String) (v : Value)
    (hne : k2 ≠ k) : (es.insertGo k v).lookup k2 = es.lookup k2 := by
  induction es using Entries.recE with
  | hnil => simp [insertGo, lookup, Ne.symm hne]
  | hcons k1 v1 rest ih =>
    by_cases h1 : keyLtB k k1 = true
    · simp [insertGo, h1, lookup, Ne.symm hne]
    · by_cases h2 : k = k1
      · subst h2
        simp [insertGo, h1, lookup, Ne.symm hne, keyLtB_self]
      · simp [insertGo, h1, h2, lookup, ih]

theorem lookup_erase_self (es : Entries) (k : String) :
    (es.erase k).lookup k = none := by
  induction es using Entries.recE with
  | hnil => simp [erase, lookup]
  | hcons k1 v1 rest ih =>
    by_cases h1 : k1 = k
    · simp [erase, h1, ih]
    · simp [erase, h1, lookup, Ne.symm h1, ih]

theorem lookup_erase_ne (es : Entries) (k k2 : String) (hne : k2 ≠ k) :
    (es.erase k).lookup k2 = es.lookup k2 := by
  induction es using Entries.recE with
  | hnil => simp [erase, lookup]
  | hcons k1 v1 rest ih =>
    by_cases h1 : k1 = k
    · subst h1
      simp [erase, lookup, hne, Ne.symm hne, ih]
    · by_cases h2 : k1 = k2
      · subst h2
        simp [erase, h1, lookup, ih]
      · simp [erase, h1, lookup, h2, ih]

theorem lookup_append (xs ys : Entries) (k : String) :
    (xs.append ys).lookup k =
      match xs.lookup k with
      | some v => some v
      | none => ys.lookup k := by
  induction xs using Entries.recE with
  | hnil => simp [Entries.append, lookup]
  | hcons k1 v1 rest ih =>
    by_cases h : k1 = k
    · simp [Entries.append, lookup, h]
    · simp [Entries.append, lookup, h, ih]

end BasicLemmas

end Loog

namespace Loog

section WfLemmas

theorem wfFrom_weaken {l1 : String} {es : Entries} (lo2 : Option String)
    (h : Entries.wfFrom (some l1) es = true)
    (hle : ∀ l2, lo2 = some l2 → l2 ≤ l1) :
    Entries.wfFrom lo2 es = true := by
  cases es with
  | nil => rfl
  | cons k v rest =>
    simp only [Entries.wfFrom, Bool.and_eq_true] at h ⊢
    refine ⟨⟨?_, h.1.2⟩, h.2⟩
    cases lo2 with
    | none => rfl
    | some l2 =>
      exact loLtB_some.mpr (lt_of_le_of_lt (hle l2 rfl) (loLtB_some.mp h.1.1))

theorem lookup_none_of_le {l : String} {es : Entries} {k : String}
    (h : Entries.wfFrom (some l) es = true) (hk : k ≤ l) :
    es.lookup k = none := by
  induction es using Entries.recE generalizing l with
  | hnil => rfl
  | hcons k1 v1 rest ih =>
    simp only [Entries.wfFrom, Bool.and_eq_true] at h
    have hlk1 : l < k1 := loLtB_some.mp h.1.1
    have hne : k1 ≠ k := fun he =>
      absurd (lt_of_le_of_lt hk (he ▸ hlk1)) (lt_irrefl k)
    rw [show Entries.lookup (.cons k1 v1 rest) k
        = if k1 = k then some v1 else rest.lookup k from rfl, if_neg hne]
    exact ih h.2 (le_of_lt (lt_of_le_of_lt hk hlk1))

theorem nodupKeys_of_wfFrom {lo : Option String} {es : Entries}
    (h : Entries.wfFrom lo es = true) : es.nodupKeys = true := by
  induction es using Entries.recE generalizing lo with
  | hnil => rfl
  | hcons k v rest ih =>
    simp only [Entries.wfFrom, Bool.and_eq_true] at h
    simp only [Entries.nodupKeys, Bool.and_eq_true]
    exact ⟨by simp [lookup_none_of_le h.2 (le_refl k)], ih h.2⟩

theorem ext_of_lookup {a b : Entries} {lo : Option String}
    (ha : Entries.wfFrom lo a = true) (hb : Entries.wfFrom lo b = true)
    (h : ∀ k, a.lookup k = b.lookup k) : a = b := by
  induction a using Entries.recE generalizing b lo with
  | hnil =>
    cases b with
    | nil => rfl
    | cons k2 v2 r2 =>
      have h2 := h k2
      simp [Entries.lookup] at h2
  | hcons k1 v1 r1 ih =>
    cases b with
    | nil =>
      have h1 := h k1
      simp [Entries.lookup] at h1
    | cons k2 v2 r2 =>
      simp only [Entries.wfFrom, Bool.and_eq_true] at ha hb
      have hkeq : k1 = k2 := by
        rcases lt_trichotomy k1 k2 with hlt | heq | hgt
        · exfalso
          have h1 := h k1
          have hr2 : r2.lookup k1 = none :=
            lookup_none_of_le hb.2 (le_of_lt hlt)
          have hne : k2 ≠ k1 := ne_of_gt hlt
          simp [Entries.lookup, hne, hr2] at h1
        · exact heq
        · exfalso
          have h2 := h k2
          have hr1 : r1.lookup k2 = none :=
            lookup_none_of_le ha.2 (le_of_lt hgt)
          have hne : k1 ≠ k2 := ne_of_gt hgt
          simp [Entries.lookup, hne, hr1] at h2
      subst hkeq
      have hveq : v1 = v2 := by
        have h1 := h k1
        simpa [Entries.lookup] using h1
      subst hveq
      have htails : ∀ k, r1.lookup k = r2.lookup k := by
        intro k
        by_cases hk : k1 = k
        · subst hk
          rw [lookup_none_of_le ha.2 (le_refl k1),
            lookup_none_of_le hb.2 (le_refl k1)]
        · have h1 := h k
          simpa [Entries.lookup, hk] using h1
      exact congrArg _ (ih ha.2 hb.2 htails)

end WfLemmas

end Loog

namespace Loog

section ValueFacts

theorem equalFast_eq {a b : Value} (h : equalFast a b = true) : a = b := by
  cases a <;> cases b <;> simp_all [equalFast]
  rename_i ma mb
  obtain ⟨hma, hmb⟩ := h
  rw [isEmpty_iff_nil] at hma hmb
  rw [hma, hmb]

theorem wf_of_lookup {lo : Option String} {es : Entries} {k : String} {v : Value}
    (hwf : Entries.wfFrom lo es = true) (hl : es.lookup k = some v) :
    v.wf = true := by
  induction es using Entries.recE generalizing lo with
  | hnil => simp [Entries.lookup] at hl
  | hcons k1 v1 rest ih =>
    simp only [Entries.wfFrom, Bool.and_eq_true] at hwf
    by_cases he : k1 = k
    · rw [show Entries.lookup (.cons k1 v1 rest) k
        = if k1 = k then some v1 else rest.lookup k from rfl, if_pos he] at hl
      cases hl
      exact hwf.1.2
    · rw [show Entries.lookup (.cons k1 v1 rest) k
        = if k1 = k then some v1 else rest.lookup k from rfl, if_neg he] at hl
      exact ih hwf.2 hl

theorem nullFree_of_lookup {es : Entries} {k : String} {v : Value}
    (hnf : es.nullFree = true) (hl : es.lookup k = some v) :
    v.notNull = true ∧ v.nullFree = true := by
  induction es using Entries.recE with
  | hnil => simp [Entries.lookup] at hl
  | hcons k1 v1 rest ih =>
    simp only [Entries.nullFree, Bool.and_eq_true] at hnf
    by_cases he : k1 = k
    · rw [show Entries.lookup (.cons k1 v1 rest) k
        = if k1 = k then some v1 else rest.lookup k from rfl, if_pos he] at hl
      cases hl
      exact ⟨hnf.1.1, hnf.1.2⟩
    · rw [show Entries.lookup (.cons k1 v1 rest) k
        = if k1 = k then some v1 else rest.lookup k from rfl, if_neg he] at hl
      exact ih hnf.2 hl

theorem sizeOf_of_lookup {es : Entries} {k : String} {v : Value}
    (hl : es.lookup k = some v) : sizeOf v < sizeOf es := by
  induction es using Entries.recE with
  | hnil => simp [Entries.lookup] at hl
  | hcons k1 v1 rest ih =>
    by_cases he : k1 = k
    · rw [show Entries.lookup (.cons k1 v1 rest) k
        = if k1 = k then some v1 else rest.lookup k from rfl, if_pos he] at hl
      cases hl
      simp only [Entries.cons.sizeOf_spec]
      omega
    · rw [show Entries.lookup (.cons k1 v1 rest) k
        = if k1 = k then some v1 else rest.lookup k from rfl, if_neg he] at hl
      have := ih hl
      simp only [Entries.cons.sizeOf_spec]
      omega

end ValueFacts

section InsertEraseWf

theorem wfFrom_insertGo {lo : Option String} {es : Entries} {k : String} {v : Value}
    (hwf : Entries.wfFrom lo es = true) (hv : v.wf = true)
    (hlo : loLtB lo k = true) :
    Entries.wfFrom lo (es.insertGo k v) = true := by
  induction es using Entries.recE generalizing lo with
  | hnil =>
    simp only [Entries.insertGo, Entries.wfFrom, Bool.and_eq_true]
    exact ⟨⟨hlo, hv⟩, trivial⟩
  | hcons k1 v1 rest ih =>
    simp only [Entries.wfFrom, Bool.and_eq_true] at hwf
    by_cases h1 : keyLtB k k1 = true
    · rw [show Entries.insertGo (.cons k1 v1 rest) k v
        = if keyLtB k k1 then .cons k v (.cons k1 v1 rest)
          else if k = k1 then .cons k v rest
          else .cons k1 v1 (rest.insertGo k v) from rfl, if_pos h1]
      simp only [Entries.wfFrom, Bool.and_eq_true]
      exact ⟨⟨hlo, hv⟩, ⟨loLtB_some.mpr (keyLtB_iff.mp h1), hwf.1.2⟩, hwf.2⟩
    · by_cases h2 : k = k1
      · rw [show Entries.insertGo (.cons k1 v1 rest) k v
          = if keyLtB k k1 then .cons k v (.cons k1 v1 rest)
            else if k = k1 then .cons k v rest
            else .cons k1 v1 (rest.insertGo k v) from rfl, if_neg h1, if_pos h2]
        subst h2
        simp only [Entries.wfFrom, Bool.and_eq_true]
        exact ⟨⟨hlo, hv⟩, hwf.2⟩
      · rw [show Entries.insertGo (.cons k1 v1 rest) k v
          = if keyLtB k k1 then .cons k v (.cons k1 v1 rest)
            else if k = k1 then .cons k v rest
            else .cons k1 v1 (rest.insertGo k v) from rfl, if_neg h1, if_neg h2]
        simp only [Entries.wfFrom, Bool.and_eq_true]
        have hk1k : k1 < k := by
          rcases lt_trichotomy k k1 with h | h | h
          · exact absurd (keyLtB_iff.mpr h) h1
          · exact absurd h h2
          · exact h
        exact ⟨hwf.1, ih hwf.2 (loLtB_some.mpr hk1k)⟩

theorem wfFrom_erase {lo : Option String} {es : Entries} {k : String}
    (hwf : Entries.wfFrom lo es = true) :
    Entries.wfFrom lo (es.erase k) = true := by
  induction es using Entries.recE generalizing lo with
  | hnil => rfl
  | hcons k1 v1 rest ih =>
    simp only [Entries.wfFrom, Bool.and_eq_true] at hwf
    by_cases h1 : k1 = k
    · rw [show Entries.erase (.cons k1 v1 rest) k
        = if k1 = k then rest.erase k else .cons k1 v1 (rest.erase k) from rfl,
        if_pos h1]
      refine ih ?_
      cases lo with
      | none => exact wfFrom_weaken none hwf.2 (by intro l2 h; cases h)
      | some l =>
        refine wfFrom_weaken (some l) hwf.2 ?_
        intro l2 hestruct
        cases hestruct
        exact le_of_lt (loLtB_some.mp hwf.1.1)
    · rw [show Entries.erase (.cons k1 v1 rest) k
        = if k1 = k then rest.erase k else .cons k1 v1 (rest.erase k) from rfl,
        if_neg h1]
      simp only [Entries.wfFrom, Bool.and_eq_true]
      exact ⟨hwf.1, ih hwf.2⟩

end InsertEraseWf

end Loog

namespace Loog

section ApplyLookup

theorem applyRecursive_cons (dst : Entries) (k : String) (v : Value)
    (rest : Entries) :
    applyRecursive dst (.cons k v rest) = applyRecursive (applyStep dst k v) rest := by
  cases v <;> rfl

theorem lookup_applyStep_self (dst : Entries) (k : String) (v : Value) :
    (applyStep dst k v).lookup k = applyLookupSpec dst k (some v) := by
  cases v with
  | null => exact lookup_erase_self dst k
  | map m => exact lookup_insertGo_self dst k _
  | str s => exact lookup_insertGo_self dst k _
  | int n => exact lookup_insertGo_self dst k _
  | bool b => exact lookup_insertGo_self dst k _
  | list l => exact lookup_insertGo_self dst k _

theorem lookup_applyStep_ne (dst : Entries) (k k2 : String) (v : Value)
    (hne : k2 ≠ k) : (applyStep dst k v).lookup k2 = dst.lookup k2 := by
  cases v with
  | null => exact lookup_erase_ne dst k k2 hne
  | map m => exact lookup_insertGo_ne dst k k2 _ hne
  | str s => exact lookup_insertGo_ne dst k k2 _ hne
  | int n => exact lookup_insertGo_ne dst k k2 _ hne
  | bool b => exact lookup_insertGo_ne dst k k2 _ hne
  | list l => exact lookup_insertGo_ne dst k k2 _ hne

theorem applyLookupSpec_congr {dst dst2 : Entries} {k : String}
    (h : dst.lookup k = dst2.lookup k) (o : Option Value) :
    applyLookupSpec dst k o = applyLookupSpec dst2 k o := by
  have hsub : subFor dst k = subFor dst2 k := by
    unfold subFor
    rw [h]
  cases o with
  | none => simpa [applyLookupSpec] using h
  | some v => cases v <;> simp [applyLookupSpec, hsub]

theorem applyRecursive_lookup {chg : Entries} (hnd : chg.nodupKeys = true)
    (dst : Entries) (k : String) :
    (applyRecursive dst chg).lookup k = applyLookupSpec dst k (chg.lookup k) := by
  induction chg using Entries.recE generalizing dst with
  | hnil => rfl
  | hcons k1 v rest ih =>
    simp only [Entries.nodupKeys, Bool.and_eq_true, Option.isNone_iff_eq_none] at hnd
    rw [applyRecursive_cons]
    rw [ih hnd.2]
    by_cases hk : k1 = k
    · subst hk
      rw [show Entries.lookup (.cons k1 v rest) k1
        = if k1 = k1 then some v else rest.lookup k1 from rfl, if_pos rfl]
      rw [hnd.1]
      show applyLookupSpec (applyStep dst k1 v) k1 none = _
      show (applyStep dst k1 v).lookup k1 = _
      exact lookup_applyStep_self dst k1 v
    · rw [show Entries.lookup (.cons k1 v rest) k
        = if k1 = k then some v else rest.lookup k from rfl, if_neg hk]
      exact applyLookupSpec_congr
        (lookup_applyStep_ne dst k1 k v (fun h => hk h.symm)) _

end ApplyLookup

end Loog

namespace Loog

section ApplyWf

theorem chgWF_of_wfFrom : ∀ (n : Nat) {es : Entries} {lo : Option String},
    sizeOf es ≤ n → Entries.wfFrom lo es = true → es.chgWF = true := by
  intro n
  induction n with
  | zero =>
    intro es lo hsz
    cases es with
    | nil => intro _; rfl
    | cons k v rest => simp [Entries.cons.sizeOf_spec] at hsz
  | succ n ih =>
    intro es lo hsz hwf
    cases es with
    | nil => rfl
    | cons k v rest =>
      simp only [Entries.wfFrom, Bool.and_eq_true] at hwf
      simp only [Entries.chgWF, Bool.and_eq_true]
      have hsz2 : sizeOf rest ≤ n := by
        simp only [Entries.cons.sizeOf_spec] at hsz
        omega
      refine ⟨?_, ih hsz2 hwf.2⟩
      cases v with
      | map m =>
        have hm : Entries.wfFrom none m = true := hwf.1.2
        have hszm : sizeOf m ≤ n := by
          simp only [Entries.cons.sizeOf_spec, Value.map.sizeOf_spec] at hsz ⊢
          omega
        exact ih hszm hm
      | list l => exact hwf.1.2
      | str s => rfl
      | int i => rfl
      | bool b => rfl
      | null => rfl

theorem chgOK_of_wf {v : Value} (h : v.wf = true) : v.chgOK = true := by
  cases v with
  | map m => exact chgWF_of_wfFrom (sizeOf m) (le_refl _) h
  | list l => exact h
  | str s => rfl
  | int i => rfl
  | bool b => rfl
  | null => rfl

theorem wf_subFor {dst : Entries} (k : String)
    (h : Entries.wfFrom none dst = true) :
    Entries.wfFrom none (subFor dst k) = true := by
  unfold subFor
  cases hl : dst.lookup k with
  | none => rfl
  | some v =>
    cases v with
    | map m0 => exact wf_of_lookup h hl
    | str s => rfl
    | int i => rfl
    | bool b => rfl
    | null => rfl
    | list l => rfl

theorem wfFrom_applyRecursive : ∀ (n : Nat) {chg : Entries},
    sizeOf chg ≤ n → ∀ {dst : Entries}, Entries.wfFrom none dst = true →
    chg.chgWF = true → Entries.wfFrom none (applyRecursive dst chg) = true := by
  intro n
  induction n with
  | zero =>
    intro chg hsz
    cases chg with
    | nil => intro dst h _; exact h
    | cons k v rest => simp [Entries.cons.sizeOf_spec] at hsz
  | succ n ih =>
    intro chg hsz dst hdst hchg
    cases chg with
    | nil => exact hdst
    | cons k v rest =>
      simp only [Entries.chgWF, Bool.and_eq_true] at hchg
      rw [applyRecursive_cons]
      have hrest : sizeOf rest ≤ n := by
        simp only [Entries.cons.sizeOf_spec] at hsz
        omega
      refine ih hrest ?_ hchg.2
      cases v with
      | null => exact wfFrom_erase hdst
      | map m =>
        have hszm : sizeOf m ≤ n := by
          simp only [Entries.cons.sizeOf_spec, Value.map.sizeOf_spec] at hsz
          omega
        have hinner : Entries.wfFrom none (applyRecursive (subFor dst k) m) = true :=
          ih hszm (wf_subFor k hdst) hchg.1
        exact wfFrom_insertGo hdst hinner rfl
      | str s => exact wfFrom_insertGo hdst rfl rfl
      | int i => exact wfFrom_insertGo hdst rfl rfl
      | bool b => exact wfFrom_insertGo hdst rfl rfl
      | list l => exact wfFrom_insertGo hdst hchg.1 rfl

end ApplyWf

end Loog

namespace Loog

section DiffLookup

theorem diffRecursiveDel_cons (k : String) (va : Value) (rest b : Entries) :
    diffRecursiveDel (.cons k va rest) b =
      match delDecision va (b.lookup k) with
      | none => diffRecursiveDel rest b
      | some w => .cons k w (diffRecursiveDel rest b) := by
  cases hb : b.lookup k with
  | none => simp [diffRecursiveDel, delDecision, hb]
  | some vb =>
    by_cases he : equalFast va vb
    · simp [diffRecursiveDel, delDecision, hb, he]
    · cases va <;> cases vb <;>
        simp only [diffRecursiveDel, delDecision, diffRecursive, hb, he,
          if_false, Bool.false_eq_true, if_neg] <;>
        first
        | rfl
        | (split <;> simp_all)

theorem lookup_diffRecursiveAdd (a b : Entries) (k : String) :
    (diffRecursiveAdd a b).lookup k =
      match a.lookup k with
      | some _ => none
      | none => b.lookup k := by
  induction b using Entries.recE with
  | hnil =>
    cases h : a.lookup k <;> simp [diffRecursiveAdd, Entries.lookup, h]
  | hcons k1 vb rest ih =>
    by_cases hk : k1 = k
    · subst hk
      cases h : a.lookup k1 with
      | some v => simp [diffRecursiveAdd, h, ih, Entries.lookup]
      | none => simp [diffRecursiveAdd, h, Entries.lookup]
    · cases h1 : a.lookup k1 with
      | some v =>
        rw [show diffRecursiveAdd a (.cons k1 vb rest)
          = match a.lookup k1 with
            | some _ => diffRecursiveAdd a rest
            | none => .cons k1 vb (diffRecursiveAdd a rest) from rfl, h1]
        rw [ih]
        rw [show Entries.lookup (.cons k1 vb rest) k
          = if k1 = k then some vb else rest.lookup k from rfl, if_neg hk]
      | none =>
        rw [show diffRecursiveAdd a (.cons k1 vb rest)
          = match a.lookup k1 with
            | some _ => diffRecursiveAdd a rest
            | none => .cons k1 vb (diffRecursiveAdd a rest) from rfl, h1]
        rw [show Entries.lookup
            (.cons k1 vb (diffRecursiveAdd a rest)) k
          = if k1 = k then some vb else (diffRecursiveAdd a rest).lookup k from rfl,
          if_neg hk]
        rw [ih]
        rw [show Entries.lookup (.cons k1 vb rest) k
          = if k1 = k then some vb else rest.lookup k from rfl, if_neg hk]

theorem lookup_diffRecursiveDel {a : Entries} (hnd : a.nodupKeys = true)
    (b : Entries) (k : String) :
    (diffRecursiveDel a b).lookup k =
      match a.lookup k with
      | none => none
      | some va => delDecision va (b.lookup k) := by
  induction a using Entries.recE with
  | hnil => rfl
  | hcons k1 va rest ih =>
    simp only [Entries.nodupKeys, Bool.and_eq_true, Option.isNone_iff_eq_none] at hnd
    rw [diffRecursiveDel_cons]
    by_cases hk : k1 = k
    · subst hk
      rw [show Entries.lookup (.cons k1 va rest) k1
        = if k1 = k1 then some va else rest.lookup k1 from rfl, if_pos rfl]
      cases hd : delDecision va (b.lookup k1) with
      | none =>
        rw [ih hnd.2, hnd.1]
        simp [hd]
      | some w =>
        rw [show Entries.lookup (.cons k1 w (diffRecursiveDel rest b)) k1
          = if k1 = k1 then some w else (diffRecursiveDel rest b).lookup k1 from rfl,
          if_pos rfl]
        simp [hd]
    · rw [show Entries.lookup (.cons k1 va rest) k
        = if k1 = k then some va else rest.lookup k from rfl, if_neg hk]
      cases hd : delDecision va (b.lookup k1) with
      | none => rw [ih hnd.2]
      | some w =>
        rw [show Entries.lookup (.cons k1 w (diffRecursiveDel rest b)) k
          = if k1 = k then some w else (diffRecursiveDel rest b).lookup k from rfl,
          if_neg hk]
        rw [ih hnd.2]

theorem lookup_diffRecursive {a : Entries} (hnd : a.nodupKeys = true)
    (b : Entries) (k : String) :
    (diffRecursive a b).lookup k =
      match a.lookup k with
      | none => b.lookup k
      | some va => delDecision va (b.lookup k) := by
  rw [show diffRecursive a b
    = (diffRecursiveDel a b).append (diffRecursiveAdd a b) from rfl]
  rw [lookup_append, lookup_diffRecursiveDel hnd, lookup_diffRecursiveAdd]
  cases ha : a.lookup k with
  | none => rfl
  | some va =>
    cases hd : delDecision va (b.lookup k) <;> simp [hd]

end DiffLookup

end Loog

namespace Loog

section DiffShape

theorem nodupKeys_append {x y : Entries} (hx : x.nodupKeys = true)
    (hy : y.nodupKeys = true)
    (hcross : ∀ k, (x.lookup k).isSome → y.lookup k = none) :
    (x.append y).nodupKeys = true := by
  induction x using Entries.recE with
  | hnil => exact hy
  | hcons k1 v1 rest ih =>
    simp only [Entries.nodupKeys, Bool.and_eq_true, Option.isNone_iff_eq_none] at hx ⊢
    constructor
    · rw [lookup_append, hx.1]
      exact hcross k1 (by simp [Entries.lookup])
    · refine ih hx.2 ?_
      intro k hk
      refine hcross k ?_
      rw [show Entries.lookup (.cons k1 v1 rest) k
        = if k1 = k then some v1 else rest.lookup k from rfl]
      by_cases h : k1 = k
      · simp [h]
      · simpa [h] using hk

theorem nodupKeys_diffRecursiveDel {a : Entries} (hnd : a.nodupKeys = true)
    (b : Entries) : (diffRecursiveDel a b).nodupKeys = true := by
  induction a using Entries.recE with
  | hnil => rfl
  | hcons k1 va rest ih =>
    simp only [Entries.nodupKeys, Bool.and_eq_true, Option.isNone_iff_eq_none] at hnd
    rw [diffRecursiveDel_cons]
    cases hd : delDecision va (b.lookup k1) with
    | none => exact ih hnd.2
    | some w =>
      simp only [Entries.nodupKeys, Bool.and_eq_true, Option.isNone_iff_eq_none]
      constructor
      · rw [lookup_diffRecursiveDel hnd.2, hnd.1]
      · exact ih hnd.2

theorem nodupKeys_diffRecursiveAdd (a : Entries) {b : Entries}
    (hnd : b.nodupKeys = true) : (diffRecursiveAdd a b).nodupKeys = true := by
  induction b using Entries.recE with
  | hnil => rfl
  | hcons k1 vb rest ih =>
    simp only [Entries.nodupKeys, Bool.and_eq_true, Option.isNone_iff_eq_none] at hnd
    cases h1 : a.lookup k1 with
    | some v =>
      rw [show diffRecursiveAdd a (.cons k1 vb rest)
        = match a.lookup k1 with
          | some _ => diffRecursiveAdd a rest
          | none => .cons k1 vb (diffRecursiveAdd a rest) from rfl, h1]
      exact ih hnd.2
    | none =>
      rw [show diffRecursiveAdd a (.cons k1 vb rest)
        = match a.lookup k1 with
          | some _ => diffRecursiveAdd a rest
          | none => .cons k1 vb (diffRecursiveAdd a rest) from rfl, h1]
      simp only [Entries.nodupKeys, Bool.and_eq_true, Option.isNone_iff_eq_none]
      constructor
      · rw [lookup_diffRecursiveAdd, h1, hnd.1]
      · exact ih hnd.2

theorem nodupKeys_diffRecursive {a b : Entries} (ha : a.nodupKeys = true)
    (hb : b.nodupKeys = true) : (diffRecursive a b).nodupKeys = true := by
  refine nodupKeys_append (nodupKeys_diffRecursiveDel ha b)
    (nodupKeys_diffRecursiveAdd a hb) ?_
  intro k hk
  rw [lookup_diffRecursiveDel ha] at hk
  rw [lookup_diffRecursiveAdd]
  cases h : a.lookup k with
  | none => rw [h] at hk; simp at hk
  | some va => rfl

theorem chgWF_append_left {x y : Entries} (h : (x.append y).chgWF = true) :
    x.chgWF = true := by
  induction x using Entries.recE with
  | hnil => rfl
  | hcons k1 v1 rest ih =>
    simp only [Entries.append, Entries.chgWF, Bool.and_eq_true] at h ⊢
    exact ⟨h.1, ih h.2⟩

theorem chgWF_append {x y : Entries} (hx : x.chgWF = true)
    (hy : y.chgWF = true) : (x.append y).chgWF = true := by
  induction x using Entries.recE with
  | hnil => exact hy
  | hcons k1 v1 rest ih =>
    simp only [Entries.chgWF, Bool.and_eq_true] at hx ⊢
    exact ⟨hx.1, ih hx.2⟩

theorem chgWF_diffRecursiveAdd (a : Entries) {b : Entries} {lo : Option String}
    (hb : Entries.wfFrom lo b = true) : (diffRecursiveAdd a b).chgWF = true := by
  induction b using Entries.recE generalizing lo with
  | hnil => rfl
  | hcons k1 vb rest ih =>
    simp only [Entries.wfFrom, Bool.and_eq_true] at hb
    cases h1 : a.lookup k1 with
    | some v =>
      rw [show diffRecursiveAdd a (.cons k1 vb rest)
        = match a.lookup k1 with
          | some _ => diffRecursiveAdd a rest
          | none => .cons k1 vb (diffRecursiveAdd a rest) from rfl, h1]
      exact ih hb.2
    | none =>
      rw [show diffRecursiveAdd a (.cons k1 vb rest)
        = match a.lookup k1 with
          | some _ => diffRecursiveAdd a rest
          | none => .cons k1 vb (diffRecursiveAdd a rest) from rfl, h1]
      simp only [Entries.chgWF, Bool.and_eq_true]
      exact ⟨chgOK_of_wf hb.1.2, ih hb.2⟩

theorem chgWF_diffRecursive : ∀ (n : Nat) {a b : Entries}
    {lo1 lo2 : Option String}, sizeOf a ≤ n →
    Entries.wfFrom lo1 a = true → Entries.wfFrom lo2 b = true →
    (diffRecursive a b).chgWF = true := by
  intro n
  induction n with
  | zero =>
    intro a b lo1 lo2 hsz
    cases a with
    | nil =>
      intro _ hb
      rw [show diffRecursive .nil b = diffRecursiveAdd .nil b from rfl]
      exact chgWF_diffRecursiveAdd .nil hb
    | cons k v rest => simp [Entries.cons.sizeOf_spec] at hsz
  | succ n ih =>
    intro a b lo1 lo2 hsz ha hb
    cases a with
    | nil =>
      rw [show diffRecursive .nil b = diffRecursiveAdd .nil b from rfl]
      exact chgWF_diffRecursiveAdd .nil hb
    | cons k1 va rest =>
      simp only [Entries.wfFrom, Bool.and_eq_true] at ha
      rw [show diffRecursive (.cons k1 va rest) b
        = (diffRecursiveDel (.cons k1 va rest) b).append
            (diffRecursiveAdd (.cons k1 va rest) b) from rfl]
      refine chgWF_append ?_ (chgWF_diffRecursiveAdd _ hb)
      rw [diffRecursiveDel_cons]
      have hrest : (diffRecursiveDel rest b).chgWF = true := by
        have hr : sizeOf rest ≤ n := by
          simp only [Entries.cons.sizeOf_spec] at hsz
          omega
        have := ih hr ha.2 hb
        rw [show diffRecursive rest b
          = (diffRecursiveDel rest b).append (diffRecursiveAdd rest b) from rfl] at this
        exact chgWF_append_left this
      cases hd : delDecision va (b.lookup k1) with
      | none => exact hrest
      | some w =>
        simp only [Entries.chgWF, Bool.and_eq_true]
        refine ⟨?_, hrest⟩
        -- analyze how the decision produced w
        cases hbk : b.lookup k1 with
        | none =>
          rw [hbk] at hd
          cases hd
          rfl
        | some vb =>
          rw [hbk] at hd
          have hvb : vb.wf = true := wf_of_lookup hb hbk
          by_cases he : equalFast va vb = true
          · rw [show delDecision va (some vb)
              = if equalFast va vb then none
                else match va, vb with
                  | .map ma, .map mb =>
                    let sub := diffRecursive ma mb
                    if sub.isEmpty then none else some (.map sub)
                  | _, _ => some vb from rfl, if_pos he] at hd
            cases hd
          · rw [show delDecision va (some vb)
              = if equalFast va vb then none
                else match va, vb with
                  | .map ma, .map mb =>
                    let sub := diffRecursive ma mb
                    if sub.isEmpty then none else some (.map sub)
                  | _, _ => some vb from rfl, if_neg he] at hd
            cases va with
            | map ma =>
              cases vb with
              | map mb =>
                simp only at hd
                by_cases hs : (diffRecursive ma mb).isEmpty = true
                · rw [if_pos hs] at hd
                  cases hd
                · rw [if_neg hs] at hd
                  cases hd
                  show (diffRecursive ma mb).chgWF = true
                  have hma : sizeOf ma ≤ n := by
                    simp only [Entries.cons.sizeOf_spec, Value.map.sizeOf_spec] at hsz
                    omega
                  exact ih hma ha.1.2 hvb
              | str s => cases hd; exact chgOK_of_wf hvb
              | int i => cases hd; exact chgOK_of_wf hvb
              | bool b2 => cases hd; exact chgOK_of_wf hvb
              | null => cases hd; rfl
              | list l => cases hd; exact chgOK_of_wf hvb
            | str s => cases hd; exact chgOK_of_wf hvb
            | int i => cases hd; exact chgOK_of_wf hvb
            | bool b2 => cases hd; exact chgOK_of_wf hvb
            | null => cases hd; exact chgOK_of_wf hvb
            | list l => cases hd; exact chgOK_of_wf hvb

end DiffShape

end Loog

namespace Loog

section DiffEmpty

theorem diffRecursiveAdd_nil_left (b : Entries) : diffRecursiveAdd .nil b = b := by
  induction b using Entries.recE with
  | hnil => rfl
  | hcons k vb rest ih =>
    rw [show diffRecursiveAdd .nil (.cons k vb rest)
      = match Entries.lookup .nil k with
        | some _ => diffRecursiveAdd .nil rest
        | none => .cons k vb (diffRecursiveAdd .nil rest) from rfl]
    rw [show Entries.lookup .nil k = none from rfl]
    rw [ih]

theorem diffRecursive_nil_left (b : Entries) : diffRecursive .nil b = b :=
  diffRecursiveAdd_nil_left b

theorem delDecision_none_cases {va : Value} {ob : Option Value}
    (h : delDecision va ob = none) :
    ∃ vb, ob = some vb ∧ (equalFast va vb = true ∨
      ∃ ma mb, va = .map ma ∧ vb = .map mb ∧
        (diffRecursive ma mb).isEmpty = true) := by
  cases ob with
  | none => cases h
  | some vb =>
    refine ⟨vb, rfl, ?_⟩
    by_cases he : equalFast va vb = true
    · exact Or.inl he
    · right
      rw [show delDecision va (some vb)
        = if equalFast va vb then none
          else match va, vb with
            | .map ma, .map mb =>
              let sub := diffRecursive ma mb
              if sub.isEmpty then none else some (.map sub)
            | _, _ => some vb from rfl, if_neg he] at h
      cases va with
      | map ma =>
        cases vb with
        | map mb =>
          simp only at h
          by_cases hs : (diffRecursive ma mb).isEmpty = true
          · exact ⟨ma, mb, rfl, rfl, hs⟩
          · rw [if_neg hs] at h; cases h
        | str s => cases h
        | int i => cases h
        | bool b2 => cases h
        | null => cases h
        | list l => cases h
      | str s => cases h
      | int i => cases h
      | bool b2 => cases h
      | null => cases h
      | list l => cases h

theorem eq_of_diffRecursive_nil : ∀ (n : Nat) {a b : Entries},
    sizeOf a ≤ n → Entries.wfFrom none a = true →
    Entries.wfFrom none b = true → diffRecursive a b = .nil → a = b := by
  intro n
  induction n with
  | zero =>
    intro a b hsz
    cases a with
    | nil =>
      intro _ _ hd
      rw [diffRecursive_nil_left] at hd
      exact hd.symm
    | cons k v rest => simp [Entries.cons.sizeOf_spec] at hsz
  | succ n ih =>
    intro a b hsz ha hb hd
    have hnda : a.nodupKeys = true := nodupKeys_of_wfFrom ha
    refine ext_of_lookup ha hb ?_
    intro k
    have hchar := lookup_diffRecursive hnda b k
    rw [hd] at hchar
    rw [show Entries.lookup .nil k = none from rfl] at hchar
    cases hak : a.lookup k with
    | none =>
      rw [hak] at hchar
      exact hchar
    | some va =>
      rw [hak] at hchar
      obtain ⟨vb, hob, hcase⟩ := delDecision_none_cases hchar.symm
      rw [hob]
      rcases hcase with he | ⟨ma, mb, hva, hvb, hs⟩
      · rw [equalFast_eq he]
      · subst hva
        subst hvb
        rw [isEmpty_iff_nil] at hs
        have hwfa : Entries.wfFrom none ma = true := wf_of_lookup ha hak
        have hwfb : Entries.wfFrom none mb = true := wf_of_lookup hb hob
        have hsz2 : sizeOf ma ≤ n := by
          have h1 := sizeOf_of_lookup hak
          simp only [Value.map.sizeOf_spec] at h1
          omega
        rw [ih hsz2 hwfa hwfb hs]

end DiffEmpty

end Loog

namespace Loog

section RoundTrip

theorem subFor_eq_of_map {a : Entries} {k : String} {ma : Entries}
    (h : a.lookup k = some (.map ma)) : subFor a k = ma := by
  unfold subFor
  rw [h]

theorem delDecision_scalar {va vb : Value} (he : equalFast va vb = false)
    (hnm : ∀ mb : Entries, vb ≠ .map mb) :
    delDecision va (some vb) = some vb := by
  cases va <;> cases vb <;>
    first
    | exact absurd rfl (hnm _)
    | simp [delDecision, he]

theorem delDecision_map_nonmapLeft {va : Value} {mb : Entries}
    (hnm : ∀ ma : Entries, va ≠ .map ma)
    (he : equalFast va (.map mb) = false) :
    delDecision va (some (.map mb)) = some (.map mb) := by
  cases va <;> first | exact absurd rfl (hnm _) | simp [delDecision, he]

theorem delDecision_map_map (ma mb : Entries)
    (he : equalFast (.map ma) (.map mb) = false) :
    delDecision (.map ma) (some (.map mb))
      = if (diffRecursive ma mb).isEmpty then none
        else some (.map (diffRecursive ma mb)) := by
  simp [delDecision, he]

theorem applyRecursive_diffRecursive : ∀ (n : Nat) {b : Entries},
    sizeOf b ≤ n → ∀ {a : Entries}, Entries.wfFrom none a = true →
    Entries.wfFrom none b = true → b.nullFree = true →
    applyRecursive a (diffRecursive a b) = b := by
  intro n
  induction n with
  | zero =>
    intro b hsz
    cases b with
    | nil => simp [Entries.nil.sizeOf_spec] at hsz
    | cons k v rest => simp [Entries.cons.sizeOf_spec] at hsz
  | succ n ih =>
    intro b hsz a ha hb hnf
    have hnda : a.nodupKeys = true := nodupKeys_of_wfFrom ha
    have hndb : b.nodupKeys = true := nodupKeys_of_wfFrom hb
    have hndchg : (diffRecursive a b).nodupKeys = true :=
      nodupKeys_diffRecursive hnda hndb
    have hchg : (diffRecursive a b).chgWF = true :=
      chgWF_diffRecursive (sizeOf a) (le_refl _) ha hb
    have hLwf : Entries.wfFrom none (applyRecursive a (diffRecursive a b)) = true :=
      wfFrom_applyRecursive (sizeOf (diffRecursive a b)) (le_refl _) ha hchg
    -- applying a sub-map of b to an empty destination reproduces it
    have happlyNil : ∀ {m : Entries}, sizeOf m ≤ n →
        Entries.wfFrom none m = true → m.nullFree = true →
        applyRecursive .nil m = m := by
      intro m hm hwfm hnfm
      have hnilwf : Entries.wfFrom none Entries.nil = true := rfl
      have h2 := ih hm hnilwf hwfm hnfm
      rwa [diffRecursive_nil_left] at h2
    refine ext_of_lookup hLwf hb ?_
    intro k
    rw [applyRecursive_lookup hndchg, lookup_diffRecursive hnda]
    cases hak : a.lookup k with
    | none =>
      cases hbk : b.lookup k with
      | none => simp [applyLookupSpec, hak]
      | some vb =>
        have hnn := nullFree_of_lookup hnf hbk
        cases vb with
        | null => simp [Value.notNull] at hnn
        | map mb =>
          have hszmb : sizeOf mb ≤ n := by
            have h1 := sizeOf_of_lookup hbk
            simp only [Value.map.sizeOf_spec] at h1
            omega
          have hwfmb : Entries.wfFrom none mb = true := wf_of_lookup hb hbk
          have hnfmb : mb.nullFree = true := hnn.2
          show some (Value.map (applyRecursive (subFor a k) mb))
            = some (Value.map mb)
          rw [show subFor a k = .nil by unfold subFor; rw [hak]]
          rw [happlyNil hszmb hwfmb hnfmb]
        | str s => rfl
        | int i => rfl
        | bool b2 => rfl
        | list l => rfl
    | some va =>
      cases hbk : b.lookup k with
      | none =>
        show applyLookupSpec a k (delDecision va none) = none
        rfl
      | some vb =>
        show applyLookupSpec a k (delDecision va (some vb)) = some vb
        by_cases he : equalFast va vb = true
        · rw [show delDecision va (some vb)
            = if equalFast va vb then none
              else match va, vb with
                | .map ma, .map mb =>
                  let sub := diffRecursive ma mb
                  if sub.isEmpty then none else some (.map sub)
                | _, _ => some vb from rfl, if_pos he]
          show a.lookup k = some vb
          rw [hak, equalFast_eq he]
        · have hnn := nullFree_of_lookup hnf hbk
          have hwfvb : vb.wf = true := wf_of_lookup hb hbk
          have hszvb := sizeOf_of_lookup hbk
          have heF : equalFast va vb = false := by
            cases h2 : equalFast va vb
            · rfl
            · exact absurd h2 he
          by_cases hvbmap : ∃ mb : Entries, vb = .map mb
          · obtain ⟨mb, rfl⟩ := hvbmap
            have hwfmb : Entries.wfFrom none mb = true := hwfvb
            have hnfmb : mb.nullFree = true := hnn.2
            have hszmb : sizeOf mb ≤ n := by
              simp only [Value.map.sizeOf_spec] at hszvb
              omega
            by_cases hvamap : ∃ ma : Entries, va = .map ma
            · obtain ⟨ma, rfl⟩ := hvamap
              have hwfma : Entries.wfFrom none ma = true := wf_of_lookup ha hak
              rw [delDecision_map_map ma mb heF]
              by_cases hs : (diffRecursive ma mb).isEmpty = true
              · rw [if_pos hs]
                show a.lookup k = some (Value.map mb)
                rw [hak]
                rw [isEmpty_iff_nil] at hs
                rw [eq_of_diffRecursive_nil (sizeOf ma) (le_refl _) hwfma hwfmb hs]
              · rw [if_neg hs]
                show some (Value.map (applyRecursive (subFor a k)
                    (diffRecursive ma mb))) = some (Value.map mb)
                rw [subFor_eq_of_map hak]
                rw [ih hszmb hwfma hwfmb hnfmb]
            · have hnm : ∀ ma : Entries, va ≠ .map ma :=
                fun ma h => hvamap ⟨ma, h⟩
              rw [delDecision_map_nonmapLeft hnm heF]
              show some (Value.map (applyRecursive (subFor a k) mb))
                = some (Value.map mb)
              have hsub : subFor a k = .nil := by
                unfold subFor
                rw [hak]
                cases va <;> first | exact absurd rfl (hnm _) | rfl
              rw [hsub, happlyNil hszmb hwfmb hnfmb]
          · have hnm : ∀ mb : Entries, vb ≠ .map mb :=
              fun mb h => hvbmap ⟨mb, h⟩
            rw [delDecision_scalar heF hnm]
            cases vb with
            | null => simp [Value.notNull] at hnn
            | map mb => exact absurd rfl (hnm mb)
            | str s => rfl
            | int i => rfl
            | bool b2 => rfl
            | list l => rfl

end RoundTrip

end Loog

namespace Loog

theorem Apply_Diff_eq {a b : Entries} (ha : a.wf = true) (hb : b.wf = true)
    (hnb : b.nullFree = true) : Apply a (Diff a b) = b := by
  rw [show Diff a b
    = if a.isEmpty && b.isEmpty then none
      else if (diffRecursive a b).isEmpty then none
      else some (diffRecursive a b) from rfl]
  by_cases h0 : (a.isEmpty && b.isEmpty) = true
  · rw [if_pos h0]
    simp only [Bool.and_eq_true, isEmpty_iff_nil] at h0
    rw [h0.1, h0.2]
    rfl
  · rw [if_neg h0]
    by_cases h1 : (diffRecursive a b).isEmpty = true
    · rw [if_pos h1]
      rw [isEmpty_iff_nil] at h1
      exact eq_of_diffRecursive_nil (sizeOf a) (le_refl _) ha hb h1
    · rw [if_neg h1]
      show (if (diffRecursive a b).isEmpty then a
        else applyRecursive a (diffRecursive a b)) = b
      rw [if_neg h1]
      exact applyRecursive_diffRecursive (sizeOf b) (le_refl _) ha hb hnb

/-- C1, counterexample: the claimed round-trip `Apply(copy(a), Diff(a, b)) == b`
fails for maps whose values are explicit nulls: with `a = {}` and
`b = {"k": null}`, `Diff(a, b) = {"k": null}`, and applying it deletes the
key instead of storing the explicit null, so the result is `{}`, not `b`. -/
theorem claim_C1_counterexample :
    Apply .nil (Diff .nil (.cons "k" .null .nil))
      ≠ .cons "k" .null .nil := by decide

/-- C1 (amended): for all canonical Objects `a` and `b` such that `b` holds
no explicit null value at any map key (at any nesting depth),
`Apply(copy(a), Diff(a, b)) == b` under the DiffMap semantics (null means
delete, sub-map means recurse, other values mean set) — including empty maps
and keys whose value changes type between scalar and map.  The null-value
restriction is forced: diff.go encodes deletion as null, so an explicit null
in `b` cannot be reproduced (see the counterexample). -/
theorem claim_C1_roundtrip (a b : Entries) (ha : a.wf = true)
    (hb : b.wf = true) (hnb : b.nullFree = true) :
    Apply a (Diff a b) = b :=
  Apply_Diff_eq ha hb hnb

/-- C1, witness: the round-trip theorem applied to the concrete S1 pair. -/
theorem claim_C1_witness :
    (sampleA.wf = true ∧ sampleB.wf = true ∧ sampleB.nullFree = true)
      ∧ Apply sampleA (Diff sampleA sampleB) = sampleB :=
  ⟨⟨by decide, by decide, by decide⟩,
    claim_C1_roundtrip sampleA sampleB (by decide) (by decide) (by decide)⟩

end Loog

namespace Loog

section TrackerArith

theorem mod_pred {K cur : Nat} (hK : 0 < K) (hne : cur % K ≠ 0) :
    1 ≤ cur ∧ (cur - 1) % K + 1 = cur % K := by
  have hlt : cur % K < K := Nat.mod_lt _ hK
  have hge : 1 ≤ cur % K := Nat.pos_of_ne_zero hne
  have hdm : K * (cur / K) + cur % K = cur := Nat.div_add_mod cur K
  have hcur1 : 1 ≤ cur := by omega
  refine ⟨hcur1, ?_⟩
  have hsub : cur - 1 = K * (cur / K) + (cur % K - 1) := by omega
  rw [hsub, Nat.mul_add_mod, Nat.mod_eq_of_lt (by omega)]
  omega

theorem cadence_iff {K n : Nat} (hK : 0 < K) (hn : 1 ≤ n) :
    K - 1 ≤ (n - 1) % K ↔ n % K = 0 := by
  have hlt : (n - 1) % K < K := Nat.mod_lt _ hK
  constructor
  · intro h
    have heq : (n - 1) % K = K - 1 := by omega
    by_contra hne
    obtain ⟨h1, h2⟩ := mod_pred hK hne
    have : n % K < K := Nat.mod_lt _ hK
    omega
  · intro h
    have hdm : K * (n / K) + n % K = n := Nat.div_add_mod n K
    have hq : 1 ≤ n / K := by
      rcases Nat.eq_zero_or_pos (n / K) with h0 | h1
      · rw [h0] at hdm; omega
      · exact h1
    obtain ⟨q1, hq1⟩ : ∃ q1, n / K = q1 + 1 := ⟨n / K - 1, by omega⟩
    rw [hq1, Nat.mul_succ] at hdm
    have hsub : n - 1 = K * q1 + (K - 1) := by omega
    rw [hsub, Nat.mul_add_mod, Nat.mod_eq_of_lt (by omega)]

end TrackerArith

end Loog

namespace Loog

section TrackerStructure

theorem getRec_append {recs : List Rec} (x : Rec) {i : Nat}
    (h : i < recs.length) : getRec (recs ++ [x]) i = getRec recs i := by
  unfold getRec
  exact List.get?_append h

theorem getRec_append_self (recs : List Rec) (x : Rec) :
    getRec (recs ++ [x]) recs.length = some x := by
  unfold getRec
  exact List.get?_concat_length recs x

theorem getRec_lt_length {recs : List Rec} {i : Nat} {r : Rec}
    (h : getRec recs i = some r) : i < recs.length := by
  unfold getRec at h
  by_contra hge
  rw [List.get?_eq_none.mpr (by omega)] at h
  cases h

end TrackerStructure

end Loog

namespace Loog

section RestoreLemmas

theorem restoreAux_append {recs : List Rec} (x : Rec)
    (hshape : patchPrevOK recs) :
    ∀ (fuel cur : Nat) (chain : List (Option Entries)), cur < recs.length →
    restoreAux (recs ++ [x]) fuel cur chain = restoreAux recs fuel cur chain := by
  intro fuel
  induction fuel with
  | zero => intro cur chain _; rfl
  | succ fuel ih =>
    intro cur chain hcur
    rw [show restoreAux (recs ++ [x]) (fuel + 1) cur chain
      = match getRec (recs ++ [x]) cur with
        | none => none
        | some (.snap _ obj) => some (chain.foldl Apply obj)
        | some (.patch prev d) => restoreAux (recs ++ [x]) fuel prev (d :: chain)
        from rfl]
    rw [show restoreAux recs (fuel + 1) cur chain
      = match getRec recs cur with
        | none => none
        | some (.snap _ obj) => some (chain.foldl Apply obj)
        | some (.patch prev d) => restoreAux recs fuel prev (d :: chain)
        from rfl]
    rw [getRec_append x hcur]
    cases hg : getRec recs cur with
    | none => rfl
    | some r =>
      cases r with
      | snap p obj => rfl
      | patch prev d =>
        have hprev : prev + 1 = cur := hshape cur prev d hg
        exact ih prev (d :: chain) (by omega)

theorem restoreAux_chain (recs : List Rec) :
    ∀ (fuel cur : Nat) (chain : List (Option Entries)),
    restoreAux recs fuel cur chain
      = (restoreAux recs fuel cur []).map (fun st => chain.foldl Apply st) := by
  intro fuel
  induction fuel with
  | zero => intro cur chain; rfl
  | succ fuel ih =>
    intro cur chain
    rw [show restoreAux recs (fuel + 1) cur chain
      = match getRec recs cur with
        | none => none
        | some (.snap _ obj) => some (chain.foldl Apply obj)
        | some (.patch prev d) => restoreAux recs fuel prev (d :: chain)
        from rfl]
    rw [show restoreAux recs (fuel + 1) cur []
      = match getRec recs cur with
        | none => none
        | some (.snap _ obj) => some (List.foldl Apply obj [])
        | some (.patch prev d) => restoreAux recs fuel prev [d]
        from rfl]
    cases hg : getRec recs cur with
    | none => rfl
    | some r =>
      cases r with
      | snap p obj => rfl
      | patch prev d =>
        show restoreAux recs fuel prev (d :: chain)
          = (restoreAux recs fuel prev [d]).map (fun st => chain.foldl Apply st)
        rw [ih prev (d :: chain), ih prev [d]]
        cases h0 : restoreAux recs fuel prev [] with
        | none => rfl
        | some st => rfl

theorem restore_append {recs : List Rec} (x : Rec)
    (hshape : patchPrevOK recs) {r : Nat} (hr : r < recs.length) :
    Restore (recs ++ [x]) r = Restore recs r :=
  restoreAux_append x hshape (r + 1) r [] hr

theorem patchDistanceAux_append {recs : List Rec} (x : Rec)
    (hshape : patchPrevOK recs) :
    ∀ (fuel cur : Nat), cur < recs.length →
    patchDistanceAux (recs ++ [x]) fuel cur = patchDistanceAux recs fuel cur := by
  intro fuel
  induction fuel with
  | zero => intro cur _; rfl
  | succ fuel ih =>
    intro cur hcur
    rw [show patchDistanceAux (recs ++ [x]) (fuel + 1) cur
      = match getRec (recs ++ [x]) cur with
        | none => none
        | some (.snap _ _) => some 0
        | some (.patch prev _) =>
            (patchDistanceAux (recs ++ [x]) fuel prev).map (· + 1) from rfl]
    rw [show patchDistanceAux recs (fuel + 1) cur
      = match getRec recs cur with
        | none => none
        | some (.snap _ _) => some 0
        | some (.patch prev _) =>
            (patchDistanceAux recs fuel prev).map (· + 1) from rfl]
    rw [getRec_append x hcur]
    cases hg : getRec recs cur with
    | none => rfl
    | some r =>
      cases r with
      | snap p obj => rfl
      | patch prev d =>
        have hprev : prev + 1 = cur := hshape cur prev d hg
        show (patchDistanceAux (recs ++ [x]) fuel prev).map (· + 1)
          = (patchDistanceAux recs fuel prev).map (· + 1)
        rw [ih prev (by omega)]

theorem patchDistance_eq {K : Nat} (hK : 0 < K) {recs : List Rec}
    (hshape : patchPrevOK recs) (hcad : snapCadence K recs) :
    ∀ cur, cur < recs.length → patchDistance recs cur = some (cur % K) := by
  intro cur
  induction cur using Nat.strong_induction_on with
  | _ cur ih =>
    intro hcur
    by_cases h0 : cur % K = 0
    · obtain ⟨p, o, hg⟩ := (hcad cur hcur).mpr h0
      rw [show patchDistance recs cur
        = match getRec recs cur with
          | none => none
          | some (.snap _ _) => some 0
          | some (.patch prev _) =>
              (patchDistanceAux recs cur prev).map (· + 1) from rfl, hg, h0]
    · obtain ⟨h1, h2⟩ := mod_pred hK h0
      cases hg : getRec recs cur with
      | none =>
        unfold getRec at hg
        have := List.get?_eq_none.mp hg
        omega
      | some r =>
        cases r with
        | snap p obj =>
          exact absurd ((hcad cur hcur).mp ⟨p, obj, hg⟩) h0
        | patch prev d =>
          have hprev : prev + 1 = cur := hshape cur prev d hg
          have hrec := ih prev (by omega) (by omega)
          rw [show patchDistance recs cur
            = match getRec recs cur with
              | none => none
              | some (.snap _ _) => some 0
              | some (.patch prev _) =>
                  (patchDistanceAux recs cur prev).map (· + 1) from rfl, hg]
          show (patchDistanceAux recs cur prev).map (· + 1) = some (cur % K)
          rw [show patchDistanceAux recs cur prev
            = patchDistance recs prev by rw [show cur = prev + 1 by omega]; rfl]
          rw [hrec]
          show some (prev % K + 1) = some (cur % K)
          rw [show prev % K + 1 = cur % K by
            rw [show prev = cur - 1 by omega]; exact h2]

end RestoreLemmas

end Loog

namespace Loog

section CommitStep

theorem Commit_step {K : Nat} (hK : 0 < K) {recs : List Rec}
    {objs : List Entries} {o : Entries}
    (hlen : recs.length = objs.length)
    (hshape : patchPrevOK recs) (hcad : snapCadence K recs)
    (hres : restoreOK recs objs)
    (hobjs : ∀ x ∈ objs, wfn x) (ho : wfn o) :
    ∃ r, Commit K recs o = some (recs ++ [r], recs.length)
      ∧ (recs ++ [r]).length = (objs ++ [o]).length
      ∧ patchPrevOK (recs ++ [r])
      ∧ snapCadence K (recs ++ [r])
      ∧ restoreOK (recs ++ [r]) (objs ++ [o]) := by
  have hlen2 : ∀ (r : Rec), (recs ++ [r]).length = (objs ++ [o]).length := by
    intro r
    simp [hlen]
  -- common facts for the two append shapes
  have hprevApp : ∀ (r : Rec),
      (∀ (prev : Nat) (d : Option Entries),
        getRec (recs ++ [r]) recs.length = some (.patch prev d)
        → prev + 1 = recs.length) →
      patchPrevOK (recs ++ [r]) := by
    intro r hnew i prev d h
    have hi : i < recs.length + 1 := by
      have := getRec_lt_length h
      simpa using this
    by_cases hilt : i < recs.length
    · rw [getRec_append r hilt] at h
      exact hshape i prev d h
    · have hieq : i = recs.length := by omega
      subst hieq
      exact hnew prev d h
  cases recs with
  | nil =>
    -- first Commit: NotFound branch writes the initial Snapshot
    have hobjsnil : objs = [] := by
      cases objs with
      | nil => rfl
      | cons x xs => simp at hlen
    subst hobjsnil
    refine ⟨.snap 0 o, rfl, by simp, ?_, ?_, ?_⟩
    · intro i prev d h
      cases i with
      | zero => simp [getRec] at h
      | succ j => simp [getRec] at h
    · intro i hi
      simp only [List.length_nil, List.nil_append, List.length_cons] at hi
      have hi0 : i = 0 := by omega
      subst hi0
      constructor
      · intro _; exact Nat.zero_mod K
      · intro _; exact ⟨0, o, rfl⟩
    · intro r hr
      simp only [List.nil_append, List.length_cons, List.length_nil] at hr
      have hr0 : r = 0 := by omega
      subst hr0
      rfl
  | cons r0 rest =>
    set recs := r0 :: rest with hrecs
    have hn1 : 1 ≤ recs.length := by simp [hrecs]
    have hlat : patchDistance recs (recs.length - 1)
        = some ((recs.length - 1) % K) :=
      patchDistance_eq hK hshape hcad (recs.length - 1) (by omega)
    have hCommitEq : Commit K recs o
        = match patchDistance recs (recs.length - 1) with
          | none => none
          | some chain =>
            if K - 1 ≤ chain then
              some (recs ++ [.snap (recs.length - 1) o], recs.length)
            else
              match Restore recs (recs.length - 1) with
              | none => none
              | some base =>
                some (recs ++ [.patch (recs.length - 1) (Diff base o)],
                  recs.length) := rfl
    have hCommitIf : Commit K recs o
        = if K - 1 ≤ (recs.length - 1) % K then
            some (recs ++ [.snap (recs.length - 1) o], recs.length)
          else
            match Restore recs (recs.length - 1) with
            | none => none
            | some base =>
              some (recs ++ [.patch (recs.length - 1) (Diff base o)],
                recs.length) := by
      rw [hCommitEq, hlat]
    by_cases hcnd : K - 1 ≤ (recs.length - 1) % K
    · -- Snapshot branch
      rw [if_pos hcnd] at hCommitIf
      have hmodz : recs.length % K = 0 := (cadence_iff hK hn1).mp hcnd
      refine ⟨.snap (recs.length - 1) o, hCommitIf, hlen2 _, ?_, ?_, ?_⟩
      · refine hprevApp _ ?_
        intro prev d h
        rw [getRec_append_self] at h
        cases h
      · intro i hi
        simp only [List.length_append, List.length_cons, List.length_nil] at hi
        by_cases hilt : i < recs.length
        · simp only [getRec_append _ hilt]
          exact hcad i hilt
        · have hieq : i = recs.length := by omega
          subst hieq
          simp only [getRec_append_self]
          constructor
          · intro _; exact hmodz
          · intro _; exact ⟨recs.length - 1, o, rfl⟩
      · intro rr hrr
        simp only [List.length_append, List.length_cons, List.length_nil] at hrr
        by_cases hrlt : rr < objs.length
        · rw [restore_append _ hshape (by omega), hres rr hrlt,
            List.get?_append hrlt]
        · have hreq : rr = objs.length := by omega
          subst hreq
          have hstep : Restore (recs ++ [Rec.snap (recs.length - 1) o])
              objs.length = some o := by
            show restoreAux (recs ++ [Rec.snap (recs.length - 1) o])
              (objs.length + 1) objs.length [] = some o
            rw [show restoreAux (recs ++ [Rec.snap (recs.length - 1) o])
                (objs.length + 1) objs.length []
              = match getRec (recs ++ [Rec.snap (recs.length - 1) o])
                  objs.length with
                | none => none
                | some (.snap _ obj) => some (List.foldl Apply obj [])
                | some (.patch prev d) =>
                    restoreAux (recs ++ [Rec.snap (recs.length - 1) o])
                      objs.length prev [d] from rfl]
            rw [← hlen, getRec_append_self]
            rfl
          rw [hstep, List.get?_concat_length]
    · -- Patch branch
      rw [if_neg hcnd] at hCommitIf
      have hmodnz : recs.length % K ≠ 0 := fun h =>
        hcnd ((cadence_iff hK hn1).mpr h)
      have hbase0 := hres (objs.length - 1) (by omega)
      cases hbg : objs.get? (objs.length - 1) with
      | none =>
        have := List.get?_eq_none.mp hbg
        omega
      | some base =>
        have hbmem : base ∈ objs := List.get?_mem hbg
        have hwb := hobjs base hbmem
        have hRb : Restore recs (recs.length - 1) = some base := by
          rw [hlen, hbase0, hbg]
        rw [hRb] at hCommitIf
        refine ⟨.patch (recs.length - 1) (Diff base o), hCommitIf, hlen2 _,
          ?_, ?_, ?_⟩
        · refine hprevApp _ ?_
          intro prev d h
          rw [getRec_append_self] at h
          cases h
          omega
        · intro i hi
          simp only [List.length_append, List.length_cons, List.length_nil] at hi
          by_cases hilt : i < recs.length
          · simp only [getRec_append _ hilt]
            exact hcad i hilt
          · have hieq : i = recs.length := by omega
            subst hieq
            simp only [getRec_append_self]
            constructor
            · intro ⟨p, o2, hpo⟩
              cases hpo
            · intro h
              exact absurd h hmodnz
        · intro rr hrr
          simp only [List.length_append, List.length_cons, List.length_nil] at hrr
          by_cases hrlt : rr < objs.length
          · rw [restore_append _ hshape (by omega), hres rr hrlt,
              List.get?_append hrlt]
          · have hreq : rr = objs.length := by omega
            subst hreq
            set recs2 := recs ++ [Rec.patch (recs.length - 1) (Diff base o)]
              with hrecs2
            have hstep : Restore recs2 objs.length
                = restoreAux recs2 objs.length (recs.length - 1)
                    [Diff base o] := by
              show restoreAux recs2 (objs.length + 1) objs.length []
                = restoreAux recs2 objs.length (recs.length - 1) [Diff base o]
              rw [show restoreAux recs2 (objs.length + 1) objs.length []
                = match getRec recs2 objs.length with
                  | none => none
                  | some (.snap _ obj) => some (List.foldl Apply obj [])
                  | some (.patch prev d) =>
                      restoreAux recs2 objs.length prev [d] from rfl]
              rw [hrecs2, ← hlen, getRec_append_self]
            have hprevRestore : restoreAux recs2 objs.length
                (recs.length - 1) [] = some base := by
              have h1 : restoreAux recs2 objs.length (recs.length - 1) []
                  = Restore recs2 (recs.length - 1) := by
                unfold Restore
                rw [show recs.length - 1 + 1 = objs.length by omega]
              rw [h1, hrecs2, restore_append _ hshape (by omega), hRb]
            rw [hstep, restoreAux_chain recs2 objs.length (recs.length - 1)
              [Diff base o], hprevRestore]
            show some (Apply base (Diff base o)) = (objs ++ [o]).get? objs.length
            rw [Apply_Diff_eq hwb.1 ho.1 ho.2, List.get?_concat_length]

end CommitStep

end Loog

namespace Loog

section CommitSequence

theorem commitList_inv {K : Nat} (hK : 0 < K) :
    ∀ (objs : List Entries) (recs : List Rec) (done : List Entries),
    (∀ x ∈ objs, wfn x) → (∀ x ∈ done, wfn x) →
    recs.length = done.length → patchPrevOK recs → snapCadence K recs →
    restoreOK recs done →
    ∃ recs2, commitList K recs objs = some recs2
      ∧ recs2.length = (done ++ objs).length
      ∧ patchPrevOK recs2 ∧ snapCadence K recs2
      ∧ restoreOK recs2 (done ++ objs) := by
  intro objs
  induction objs with
  | nil =>
    intro recs done _ _ hlen hshape hcad hres
    exact ⟨recs, rfl, by simpa using hlen, hshape, hcad, by simpa using hres⟩
  | cons o os ih =>
    intro recs done hobjs hdone hlen hshape hcad hres
    obtain ⟨r, hC, hlen2, hshape2, hcad2, hres2⟩ :=
      Commit_step hK hlen hshape hcad hres hdone (hobjs o (by simp))
    have hcl : commitList K recs (o :: os) = commitList K (recs ++ [r]) os := by
      rw [show commitList K recs (o :: os)
        = match Commit K recs o with
          | none => none
          | some (s2, _) => commitList K s2 os from rfl, hC]
    have hdone2 : ∀ x ∈ done ++ [o], wfn x := by
      intro x hx
      rcases List.mem_append.mp hx with h | h
      · exact hdone x h
      · simp only [List.mem_singleton] at h
        subst h
        exact hobjs x (by simp)
    obtain ⟨recs2, h1, h2, h3, h4, h5⟩ := ih (recs ++ [r]) (done ++ [o])
      (fun x hx => hobjs x (by simp [hx])) hdone2 hlen2 hshape2 hcad2 hres2
    refine ⟨recs2, hcl.trans h1, ?_, h3, h4, ?_⟩
    · rw [h2]
      simp
    · rw [show done ++ o :: os = (done ++ [o]) ++ os by simp]
      exact h5

theorem commitList_empty_start {K : Nat} (hK : 0 < K) (objs : List Entries)
    (hobjs : ∀ x ∈ objs, wfn x) :
    ∃ recs, commitList K [] objs = some recs
      ∧ recs.length = objs.length
      ∧ patchPrevOK recs ∧ snapCadence K recs ∧ restoreOK recs objs := by
  obtain ⟨recs, h1, h2, h3, h4, h5⟩ := commitList_inv hK objs [] []
    hobjs (by intro x hx; cases hx) rfl
    (by intro i prev d h; cases h)
    (by intro i hi; simp at hi)
    (by intro r hr; simp at hr)
  exact ⟨recs, h1, by simpa using h2, h3, h4, by simpa using h5⟩

theorem Commit_shape {K : Nat} {s s2 : List Rec} {o : Entries} {n : Nat}
    (h : Commit K s o = some (s2, n)) :
    (s = [] ∧ s2 = [.snap 0 o]) ∨ ∃ r, s2 = s ++ [r] := by
  unfold Commit at h
  split at h
  · rename_i hemp
    cases h
    left
    cases s with
    | nil => exact ⟨rfl, rfl⟩
    | cons a as => cases hemp
  · simp only [] at h
    split at h
    · cases h
    · split at h
      · cases h
        exact Or.inr ⟨_, rfl⟩
      · split at h
        · cases h
        · cases h
          exact Or.inr ⟨_, rfl⟩

theorem commitList_head {K : Nat} :
    ∀ (objs : List Entries) (s recs : List Rec),
    commitList K s objs = some recs →
    (s = [] ∨ ∃ o2, getRec s 0 = some (.snap 0 o2)) →
    (recs = [] ∨ ∃ o2, getRec recs 0 = some (.snap 0 o2)) := by
  intro objs
  induction objs with
  | nil =>
    intro s recs h hs
    cases h
    exact hs
  | cons o os ih =>
    intro s recs h hs
    rw [show commitList K s (o :: os)
      = match Commit K s o with
        | none => none
        | some (s2, _) => commitList K s2 os from rfl] at h
    cases hC : Commit K s o with
    | none => rw [hC] at h; cases h
    | some p =>
      obtain ⟨s2, n⟩ := p
      rw [hC] at h
      refine ih s2 recs h ?_
      right
      rcases Commit_shape hC with ⟨hsnil, hs2⟩ | ⟨r, hs2⟩
      · subst hs2
        exact ⟨o, rfl⟩
      · subst hs2
        rcases hs with hsnil | ⟨o2, ho2⟩
        · subst hsnil
          have h3 := hC
          rw [show Commit K [] o = some ([Rec.snap 0 o], 0) from rfl] at h3
          have h4 : Rec.snap 0 o = r := by
            have h5 : ([Rec.snap 0 o], (0 : Nat)) = ([] ++ [r], n) :=
              Option.some.inj h3
            have h6 : [Rec.snap 0 o] = [] ++ [r] := congrArg Prod.fst h5
            simpa using h6
          refine ⟨o, ?_⟩
          rw [show ([] ++ [r] : List Rec) = [r] from rfl, ← h4]
          rfl
        · have h0 : 0 < s.length := getRec_lt_length ho2
          refine ⟨o2, ?_⟩
          rw [getRec_append r h0]
          exact ho2

end CommitSequence

end Loog

namespace Loog

/-- C2, counterexample: Restore does not return the committed object when a
commit introduces an explicit null value.  Committing `{}` and then
`{"k": null}` (K = 8, so revision 1 is a Patch whose body is
`Diff({}, {k:null}) = {k:null}`) makes `Restore(uid, 1)` rebuild `{}` —
the null-delete punning of the DiffMap loses the explicit null — so the
restored object differs from the `newObject` committed for revision 1. -/
theorem claim_C2_counterexample :
    (commitList 8 [] [Entries.nil, .cons "k" .null .nil]).bind
        (fun recs => Restore recs 1) = some Entries.nil
    ∧ Entries.nil ≠ .cons "k" .null .nil := by
  constructor
  · decide
  · decide

/-- C2 (amended): for every uid whose committed objects are canonical and
carry no explicit null map-values, and every revision `r` at most the
latest revision, `Restore(uid, r)` returns a record whose Object equals the
`newObject` argument of the Commit that produced revision `r`
(equivalently: the nearest preceding Snapshot's Object with all
intervening Patches applied earliest-first equals the committed object).
The null-free restriction is forced by the DiffMap null-delete punning
(see the counterexample). -/
theorem claim_C2_restore_soundness (K : Nat) (objs : List Entries)
    (hK : 1 ≤ K) (hobjs : ∀ o ∈ objs, o.wf = true ∧ o.nullFree = true) :
    ∃ recs, commitList K [] objs = some recs
      ∧ ∀ r, r < objs.length → Restore recs r = objs.get? r := by
  obtain ⟨recs, h1, _, _, _, h5⟩ := commitList_empty_start hK objs hobjs
  exact ⟨recs, h1, h5⟩

/-- C2, witness: the soundness theorem applied to two concrete commits. -/
theorem claim_C2_witness :
    (1 ≤ 4 ∧ ∀ o ∈ [sampleA, sampleB], o.wf = true ∧ o.nullFree = true)
    ∧ ∃ recs, commitList 4 [] [sampleA, sampleB] = some recs
        ∧ ∀ r, r < ([sampleA, sampleB] : List Entries).length →
          Restore recs r = ([sampleA, sampleB] : List Entries).get? r :=
  ⟨⟨by decide, by decide⟩,
    claim_C2_restore_soundness 4 [sampleA, sampleB] (by decide) (by decide)⟩

/-- With well-shaped patch pointers, every stored revision restores to
some object, regardless of object contents: the backward walk strictly
descends and a patch at revision 0 is impossible. -/
theorem restore_some {recs : List Rec} (hshape : patchPrevOK recs) :
    ∀ cur, cur < recs.length → ∃ b, Restore recs cur = some b := by
  intro cur
  induction cur using Nat.strong_induction_on with
  | _ cur ih =>
    intro hcur
    obtain ⟨r, hg⟩ : ∃ r, getRec recs cur = some r :=
      ⟨recs.get ⟨cur, hcur⟩, List.get?_eq_get hcur⟩
    cases r with
    | snap p o =>
      refine ⟨o, ?_⟩
      show restoreAux recs (cur + 1) cur [] = some o
      rw [show restoreAux recs (cur + 1) cur []
        = match getRec recs cur with
          | none => none
          | some (.snap _ obj) => some (List.foldl Apply obj [])
          | some (.patch prev d) => restoreAux recs cur prev [d] from rfl, hg]
      rfl
    | patch prev d =>
      have hprev : prev + 1 = cur := hshape cur prev d hg
      obtain ⟨b, hb⟩ := ih prev (by omega) (by omega)
      refine ⟨Apply b d, ?_⟩
      show restoreAux recs (cur + 1) cur [] = some (Apply b d)
      rw [show restoreAux recs (cur + 1) cur []
        = match getRec recs cur with
          | none => none
          | some (.snap _ obj) => some (List.foldl Apply obj [])
          | some (.patch prev d) => restoreAux recs cur prev [d] from rfl, hg]
      show restoreAux recs cur prev [d] = some (Apply b d)
      rw [restoreAux_chain recs cur prev [d]]
      have h1 : restoreAux recs cur prev [] = Restore recs prev := by
        unfold Restore
        rw [show prev + 1 = cur from hprev]
      rw [h1, hb]
      rfl

/-- One Commit, content-free: on any store with well-shaped patch
pointers and the `r % K = 0` cadence, Commit succeeds, appends one
record, and preserves both invariants — with no hypothesis on the
committed object. -/
theorem Commit_step_cad {K : Nat} (hK : 0 < K) {recs : List Rec}
    (o : Entries) (hshape : patchPrevOK recs) (hcad : snapCadence K recs) :
    ∃ r, Commit K recs o = some (recs ++ [r], recs.length)
      ∧ patchPrevOK (recs ++ [r]) ∧ snapCadence K (recs ++ [r]) := by
  have hprevApp : ∀ (r : Rec),
      (∀ (prev : Nat) (d : Option Entries),
        getRec (recs ++ [r]) recs.length = some (.patch prev d)
        → prev + 1 = recs.length) →
      patchPrevOK (recs ++ [r]) := by
    intro r hnew i prev d h
    have hi : i < recs.length + 1 := by
      have := getRec_lt_length h
      simpa using this
    by_cases hilt : i < recs.length
    · rw [getRec_append r hilt] at h
      exact hshape i prev d h
    · have hieq : i = recs.length := by omega
      subst hieq
      exact hnew prev d h
  have hcadApp : ∀ (r : Rec),
      ((∃ p o2, getRec (recs ++ [r]) recs.length = some (.snap p o2))
        ↔ recs.length % K = 0) →
      snapCadence K (recs ++ [r]) := by
    intro r hnew i hi
    simp only [List.length_append, List.length_cons, List.length_nil] at hi
    by_cases hilt : i < recs.length
    · simp only [getRec_append _ hilt]
      exact hcad i hilt
    · have hieq : i = recs.length := by omega
      subst hieq
      exact hnew
  cases recs with
  | nil =>
    refine ⟨.snap 0 o, rfl, ?_, ?_⟩
    · intro i prev d h
      cases i with
      | zero => simp [getRec] at h
      | succ j => simp [getRec] at h
    · intro i hi
      simp only [List.nil_append, List.length_cons, List.length_nil] at hi
      have hi0 : i = 0 := by omega
      subst hi0
      constructor
      · intro _; exact Nat.zero_mod K
      · intro _; exact ⟨0, o, rfl⟩
  | cons r0 rest =>
    set recs := r0 :: rest with hrecs
    have hn1 : 1 ≤ recs.length := by simp [hrecs]
    have hlat : patchDistance recs (recs.length - 1)
        = some ((recs.length - 1) % K) :=
      patchDistance_eq hK hshape hcad (recs.length - 1) (by omega)
    have hCommitEq : Commit K recs o
        = match patchDistance recs (recs.length - 1) with
          | none => none
          | some chain =>
            if K - 1 ≤ chain then
              some (recs ++ [.snap (recs.length - 1) o], recs.length)
            else
              match Restore recs (recs.length - 1) with
              | none => none
              | some base =>
                some (recs ++ [.patch (recs.length - 1) (Diff base o)],
                  recs.length) := rfl
    have hCommitIf : Commit K recs o
        = if K - 1 ≤ (recs.length - 1) % K then
            some (recs ++ [.snap (recs.length - 1) o], recs.length)
          else
            match Restore recs (recs.length - 1) with
            | none => none
            | some base =>
              some (recs ++ [.patch (recs.length - 1) (Diff base o)],
                recs.length) := by
      rw [hCommitEq, hlat]
    by_cases hcnd : K - 1 ≤ (recs.length - 1) % K
    · rw [if_pos hcnd] at hCommitIf
      have hmodz : recs.length % K = 0 := (cadence_iff hK hn1).mp hcnd
      refine ⟨.snap (recs.length - 1) o, hCommitIf, ?_, ?_⟩
      · refine hprevApp _ ?_
        intro prev d h
        rw [getRec_append_self] at h
        cases h
      · refine hcadApp _ ?_
        simp only [getRec_append_self]
        constructor
        · intro _; exact hmodz
        · intro _; exact ⟨recs.length - 1, o, rfl⟩
    · rw [if_neg hcnd] at hCommitIf
      have hmodnz : recs.length % K ≠ 0 := fun h =>
        hcnd ((cadence_iff hK hn1).mpr h)
      obtain ⟨base, hRb⟩ := restore_some hshape (recs.length - 1) (by omega)
      rw [hRb] at hCommitIf
      refine ⟨.patch (recs.length - 1) (Diff base o), hCommitIf, ?_, ?_⟩
      · refine hprevApp _ ?_
        intro prev d h
        rw [getRec_append_self] at h
        cases h
        omega
      · refine hcadApp _ ?_
        simp only [getRec_append_self]
        constructor
        · intro ⟨p, o2, hpo⟩
          cases hpo
        · intro h
          exact absurd h hmodnz

/-- A whole Commit sequence, content-free: the cadence invariant holds
after any sequence of Commits of arbitrary objects. -/
theorem commitList_cad {K : Nat} (hK : 0 < K) :
    ∀ (objs : List Entries) (recs : List Rec),
    patchPrevOK recs → snapCadence K recs →
    ∃ recs2, commitList K recs objs = some recs2
      ∧ recs2.length = recs.length + objs.length
      ∧ patchPrevOK recs2 ∧ snapCadence K recs2 := by
  intro objs
  induction objs with
  | nil =>
    intro recs hshape hcad
    exact ⟨recs, rfl, by simp, hshape, hcad⟩
  | cons o os ih =>
    intro recs hshape hcad
    obtain ⟨r, hC, hshape2, hcad2⟩ := Commit_step_cad hK o hshape hcad
    have hcl : commitList K recs (o :: os)
        = commitList K (recs ++ [r]) os := by
      rw [show commitList K recs (o :: os)
        = match Commit K recs o with
          | none => none
          | some (s2, _) => commitList K s2 os from rfl, hC]
    obtain ⟨recs2, h1, h2, h3, h4⟩ := ih (recs ++ [r]) hshape2 hcad2
    refine ⟨recs2, hcl.trans h1, ?_, h3, h4⟩
    rw [h2]
    simp only [List.length_append, List.length_cons, List.length_nil]
    omega

/-- C3, counterexample: with `K = 4` and four commits of the same object,
the claimed cadence (`r` is a Snapshot iff `r = 0` or `r % K = K − 1`)
predicts a Snapshot at revision 3 (3 % 4 = 3 = K − 1), but the tracker
writes a Patch there (the snapshot condition `patchDistance ≥ K−1` first
fires on the commit that creates revision 4): the stored record at
revision 3 is `Patch{PreviousID: 2}`. -/
theorem claim_C3_counterexample :
    (commitList 4 [] [sampleA, sampleA, sampleA, sampleA]).bind
        (fun recs => getRec recs 3) = some (.patch 2 none)
    ∧ 3 % 4 = 4 - 1 := by
  constructor
  · decide
  · decide

/-- C3 (amended): for every uid tracked through a sequence of Commits
with snapshot interval K — with no restriction on the committed objects'
contents — the record stored at revision `r` is a Snapshot if and only if
`r % K = 0` (which subsumes `r = 0`); all other revisions are Patches.
The spec's rule `r = 0 ∨ r % K = K − 1` does not match the code: `Commit`
compares `patchDistance(latest) ≥ K − 1`, which places Snapshots at the
multiples of K — exactly what the repository's own test expects (rev 4 is
the snapshot at K = 4). -/
theorem claim_C3_snapshot_cadence (K : Nat) (objs : List Entries)
    (hK : 1 ≤ K) :
    ∃ recs, commitList K [] objs = some recs
      ∧ ∀ r, r < objs.length →
        ((∃ p o, getRec recs r = some (.snap p o)) ↔ r % K = 0) := by
  obtain ⟨recs2, h1, h2, _, h4⟩ := commitList_cad hK objs []
    (by intro i prev d h; cases h) (by intro i hi; simp at hi)
  refine ⟨recs2, h1, ?_⟩
  intro r hr
  simp only [List.length_nil, Nat.zero_add] at h2
  exact h4 r (by omega)

/-- C3, witness: the cadence theorem applied to two concrete commits, the
second of which carries an explicit null value — the cadence is
independent of object contents. -/
theorem claim_C3_witness :
    ((1 : Nat) ≤ 4)
    ∧ ∃ recs, commitList 4 []
          [sampleA, Entries.cons "x" Value.null Entries.nil] = some recs
        ∧ ∀ r, r < ([sampleA, Entries.cons "x" Value.null Entries.nil]
            : List Entries).length →
          ((∃ p o, getRec recs r = some (.snap p o)) ↔ r % 4 = 0) :=
  ⟨by decide, claim_C3_snapshot_cadence 4
      [sampleA, Entries.cons "x" Value.null Entries.nil] (by decide)⟩

/-- C6: for every uid that has never been committed (the store is empty, so
`GetLatestRevision` fails with NotFound), the first Commit writes a
Snapshot with assigned ID 0 and PreviousID 0 and returns revision 0; and
revision 0 of any uid reached by a sequence of Commits is always a
Snapshot (with PreviousID 0). -/
theorem claim_C6_first_commit :
    (∀ (K : Nat) (o : Entries), Commit K [] o = some ([.snap 0 o], 0))
    ∧ ∀ (K : Nat) (objs : List Entries) (recs : List Rec),
        commitList K [] objs = some recs → recs ≠ [] →
        ∃ o2, getRec recs 0 = some (.snap 0 o2) := by
  constructor
  · intro K o
    rfl
  · intro K objs recs h hne
    rcases commitList_head objs [] recs h (Or.inl rfl) with hnil | hsnap
    · exact absurd hnil hne
    · exact hsnap

/-- C6, witness: the first-commit theorem at a concrete object and a
concrete one-commit history. -/
theorem claim_C6_witness :
    Commit 8 [] sampleA = some ([.snap 0 sampleA], 0)
    ∧ (commitList 8 [] [sampleA] = some [.snap 0 sampleA]
        ∧ ([Rec.snap 0 sampleA] : List Rec) ≠ []
        ∧ ∃ o2, getRec [Rec.snap 0 sampleA] 0 = some (.snap 0 o2)) :=
  ⟨claim_C6_first_commit.1 8 sampleA,
    by decide,
    by decide,
    claim_C6_first_commit.2 8 [sampleA] [.snap 0 sampleA]
      (by decide) (by decide)⟩

end Loog

namespace Loog

/-- C4: duplicate suppression (spec-modelled Commit step, see
`CommitWithDedup`).  First conjunct: whenever the previously materialized
object (the restore of the latest revision) and the new object both carry
a `metadata.resourceVersion` string and they are equal, Commit fails with
`DuplicateResourceVersion` carrying the current revision and that
resourceVersion, and returns no new store content (no revision is
written).  Second conjunct: committing the same object (with a
resourceVersion) twice from scratch yields exactly one revision (revision
0) and then one `DuplicateResourceVersion` error. -/
theorem claim_C4_duplicate_suppression :
    (∀ (K : Nat) (recs : List Rec) (o prev : Entries) (rv : String),
      recs ≠ [] →
      Restore recs (recs.length - 1) = some prev →
      ExtractResourceVersion prev = some rv →
      ExtractResourceVersion o = some rv →
      CommitWithDedup K recs o
        = .error (.duplicateResourceVersion (recs.length - 1) rv))
    ∧ ∀ (K : Nat) (o : Entries) (rv : String),
      ExtractResourceVersion o = some rv →
      CommitWithDedup K [] o = .ok ([.snap 0 o], 0)
      ∧ CommitWithDedup K [.snap 0 o] o
          = .error (.duplicateResourceVersion 0 rv) := by
  constructor
  · intro K recs o prev rv hne hprev hrv1 hrv2
    cases recs with
    | nil => exact absurd rfl hne
    | cons r0 rest =>
      simp only [List.length_cons, Nat.add_sub_cancel] at hprev
      simp [CommitWithDedup, hprev, hrv1, hrv2]
  · intro K o rv hrv
    constructor
    · rfl
    · have hprev : Restore [Rec.snap 0 o] 0 = some o := rfl
      simp [CommitWithDedup, hprev, hrv]

/-- C4, witness: the duplicate-suppression theorem at a concrete object
carrying `metadata.resourceVersion = "42"`. -/
theorem claim_C4_witness :
    (ExtractResourceVersion sampleRV = some "42")
    ∧ CommitWithDedup 8 [] sampleRV = .ok ([.snap 0 sampleRV], 0)
    ∧ CommitWithDedup 8 [.snap 0 sampleRV] sampleRV
        = .error (.duplicateResourceVersion 0 "42") :=
  ⟨by decide,
    (claim_C4_duplicate_suppression.2 8 sampleRV "42" (by decide)).1,
    (claim_C4_duplicate_suppression.2 8 sampleRV "42" (by decide)).2⟩

end Loog

namespace Loog

/-- Helper for C5: starting from a store whose durable latest pointer
reads as `k`, a run of successful saves assigns exactly the RevisionIDs
`k, k+1, ..., k + n - 1`, provided the run does not wrap the uint64
latest counter. -/
theorem saveSeq_ids (bodies : List Rec) : ∀ (s : StoreState) (k : Nat),
    s.latestDur.getD 0 = k → k + bodies.length ≤ 2 ^ 64 →
    (saveSeq bodies s).2 = List.range' k bodies.length := by
  induction bodies with
  | nil => intro s k _ _; rfl
  | cons b rest ih =>
    intro s k hk hle
    have hrev : (saveRecord .ok s b).2 = some k := by
      simp [saveRecord, claimNextRevision, hk]
    have hlatest : (saveRecord .ok s b).1.latestDur
        = some ((k + 1) % 2 ^ 64) := by
      simp [saveRecord, claimNextRevision, hk]
    show ((saveRecord .ok s b).2.toList
        ++ (saveSeq rest (saveRecord .ok s b).1).2) = _
    by_cases hlt : k + 1 < 2 ^ 64
    · have hmod : (k + 1) % 2 ^ 64 = k + 1 := Nat.mod_eq_of_lt hlt
      have hrec := ih (saveRecord .ok s b).1 (k + 1)
        (by rw [hlatest, hmod]; rfl)
        (by simp only [List.length_cons] at hle; omega)
      rw [hrev, hrec]
      simp only [List.length_cons]
      rw [List.range'_succ]
      rfl
    · have hnil : rest = [] := by
        have : rest.length = 0 := by
          simp only [List.length_cons] at hle; omega
        exact List.eq_nil_of_length_eq_zero this
      subst hnil
      rw [hrev]
      simp [saveSeq, List.range'_succ]

/-- C5: successive saves on a fresh store assign the contiguous
RevisionID sequence 0, 1, 2, ..., with no gaps (each save reads the
latest pointer, absence meaning 0, uses it as the record ID, and writes
back the successor in the same transaction).  The uint64 bound on the
number of saves is vacuous in practice. -/
theorem claim_C5_contiguous_ids (bodies : List Rec)
    (h : bodies.length ≤ 2 ^ 64) :
    (saveSeq bodies emptyStore).2 = List.range bodies.length := by
  rw [List.range_eq_range']
  exact saveSeq_ids bodies emptyStore 0 rfl (by simpa using h)

/-- C5, witness: three successive saves from the empty store receive ids
0, 1, 2. -/
theorem claim_C5_witness :
    ([Rec.snap 0 .nil, Rec.patch 0 none, Rec.patch 1 none].length ≤ 2 ^ 64)
    ∧ (saveSeq [Rec.snap 0 .nil, Rec.patch 0 none, Rec.patch 1 none]
        emptyStore).2 = List.range 3 :=
  ⟨by decide, claim_C5_contiguous_ids _ (by decide)⟩

end Loog

namespace Loog

/-- C7, counterexample: a save that fails after `claimNextRevision` (e.g.
a codec error) rolls back both durable writes, yet the in-memory
next-revision counter mutated inside the transaction body keeps the new
value — it now disagrees with the durable latest pointer, contradicting
the claimed consistency of the hot map with the durable pointer. -/
theorem claim_C7_counterexample :
    ((saveRecord .failAfterClaim emptyStore (Rec.snap 0 .nil)).2 = none)
    ∧ (saveRecord .failAfterClaim emptyStore
        (Rec.snap 0 .nil)).1.latestDur = none
    ∧ (saveRecord .failAfterClaim emptyStore
        (Rec.snap 0 .nil)).1.counterMem = some 1 :=
  ⟨rfl, rfl, rfl⟩

/-- C7, amended: per-write durable atomicity holds — a failed save leaves
both the record list and the latest pointer unchanged, and a successful
save updates both together (record appended under the assigned id, the
pointer and the in-memory counter advanced to its successor) — but the
in-memory counter is NOT always kept consistent with the durable pointer:
only a failure inside `latest.Put` itself leaves the whole state intact,
while later failures leave the counter advanced past the pointer. -/
theorem claim_C7_atomicity (fp : FailPoint) (s : StoreState) (body : Rec) :
    ((saveRecord fp s body).2 = none →
      (saveRecord fp s body).1.latestDur = s.latestDur
      ∧ (saveRecord fp s body).1.recsDur = s.recsDur)
    ∧ (∀ rev, (saveRecord fp s body).2 = some rev →
      rev = s.latestDur.getD 0
      ∧ (saveRecord fp s body).1.latestDur = some ((rev + 1) % 2 ^ 64)
      ∧ (saveRecord fp s body).1.counterMem = some ((rev + 1) % 2 ^ 64)
      ∧ (saveRecord fp s body).1.recsDur = s.recsDur ++ [(rev, body)])
    ∧ (fp = .failLatestPut → saveRecord fp s body = (s, none)) := by
  cases fp with
  | failLatestPut =>
    refine ⟨fun _ => ⟨rfl, rfl⟩, ?_, fun _ => rfl⟩
    intro rev h
    simp [saveRecord] at h
  | failAfterClaim =>
    refine ⟨fun _ => ⟨rfl, rfl⟩, ?_, ?_⟩
    · intro rev h
      simp [saveRecord] at h
    · intro h
      cases h
  | ok =>
    refine ⟨?_, ?_, ?_⟩
    · intro h
      simp [saveRecord] at h
    · intro rev h
      have h' : s.latestDur.getD 0 = rev := Option.some.inj h
      subst h'
      exact ⟨rfl, rfl, rfl, rfl⟩
    · intro h
      cases h

/-- C7, witness: the atomicity theorem applied at a failing and at a
successful save from the empty store. -/
theorem claim_C7_witness :
    ((saveRecord .failAfterClaim emptyStore (Rec.patch 0 none)).1.latestDur
        = emptyStore.latestDur
      ∧ (saveRecord .failAfterClaim emptyStore
          (Rec.patch 0 none)).1.recsDur = emptyStore.recsDur)
    ∧ (0 = emptyStore.latestDur.getD 0
      ∧ (saveRecord .ok emptyStore (Rec.patch 0 none)).1.latestDur
          = some ((0 + 1) % 2 ^ 64)
      ∧ (saveRecord .ok emptyStore (Rec.patch 0 none)).1.counterMem
          = some ((0 + 1) % 2 ^ 64)
      ∧ (saveRecord .ok emptyStore (Rec.patch 0 none)).1.recsDur
          = emptyStore.recsDur ++ [(0, Rec.patch 0 none)]) :=
  ⟨(claim_C7_atomicity .failAfterClaim emptyStore (Rec.patch 0 none)).1 rfl,
   (claim_C7_atomicity .ok emptyStore (Rec.patch 0 none)).2.1 0 rfl⟩

end Loog

namespace Loog

/-- `wrap64` is the identity on the int64 range. -/
theorem wrap64_eq_self (x : Int) (h0 : -(2 ^ 63) ≤ x) (h1 : x < 2 ^ 63) :
    wrap64 x = x := by
  simp only [wrap64]
  rw [Int.emod_eq_of_lt (by omega) (by omega)]
  omega

/-- `satSub` is plain subtraction when the difference fits in int64. -/
theorem satSub_eq_sub (a b : Int) (h0 : -(2 ^ 63) ≤ a - b)
    (h1 : a - b ≤ 2 ^ 63 - 1) : satSub a b = a - b := by
  simp only [satSub]
  rw [if_neg (by omega), if_neg (by omega)]

/-- When the mathematical ttl fits in int64, the Go int64 computation of
the ttl agrees with it. -/
theorem ttl_wrap_eq (hc : Nat)
    (h : ttlBase + (hc : Int) * ttlHitBonus < 2 ^ 63) :
    wrap64 (ttlBase + wrap64 ((hc : Int) * ttlHitBonus))
      = ttlBase + (hc : Int) * ttlHitBonus := by
  simp only [ttlBase, ttlHitBonus] at h ⊢
  have h0 : 0 ≤ (hc : Int) * (4 * 1000000000) := by positivity
  rw [wrap64_eq_self ((hc : Int) * (4 * 1000000000)) (by omega) (by omega)]
  exact wrap64_eq_self _ (by omega) h

/-- One step of `evictCold`. -/
theorem evictCold_cons (now : Int) (k : String) (e' : trackerState)
    (rest : List (String × trackerState)) :
    evictCold now ((k, e') :: rest) =
      if satSub now e'.lastRead >
          wrap64 (ttlBase + wrap64 ((e'.hitCount : Int) * ttlHitBonus))
      then evictCold now rest
      else (k, { e' with hitCount := e'.hitCount / 2 })
        :: evictCold now rest := by
  by_cases h : satSub now e'.lastRead >
      wrap64 (ttlBase + wrap64 ((e'.hitCount : Int) * ttlHitBonus))
  · rw [if_pos h]
    simp [evictCold, List.filterMap_cons, h]
  · rw [if_neg h]
    simp [evictCold, List.filterMap_cons, h]

/-- A sweep introduces no new keys: a uid absent before is absent after. -/
theorem cacheLookup_evictCold_none (now : Int)
    (data : List (String × trackerState)) (uid : String)
    (h : cacheLookup data uid = none) :
    cacheLookup (evictCold now data) uid = none := by
  induction data with
  | nil => rfl
  | cons p rest ih =>
    obtain ⟨k, e'⟩ := p
    simp only [cacheLookup] at h
    by_cases hk : k = uid
    · simp [hk] at h
    · rw [if_neg hk] at h
      rw [evictCold_cons]
      split
      · exact ih h
      · simp only [cacheLookup, if_neg hk]
        exact ih h

end Loog

namespace Loog

/-- C8, counterexample: an entry read 1 nanosecond ago with hit counter
4000000000 has a mathematical ttl far above its age, yet the sweep
removes it: `time.Duration(hitCount) * ttlHitBonus` is computed in int64,
and 4000000000 x 4e9 ns overflows to a negative ttl. -/
theorem claim_C8_counterexample :
    evictCold 1 [("u", ⟨.nil, 0, 0, 4000000000⟩)] = []
    ∧ ((1 : Int) - 0 ≤ ttlBase + 4000000000 * ttlHitBonus) := by
  constructor
  · decide
  · decide

/-- C8, amended: on a janitor sweep, an entry whose ttl computation does
NOT overflow int64 is removed iff its age `now - lastRead` exceeds
`ttlBase + hitCount x ttlHitBonus` (40 s base, 4 s per hit), and if it
survives its hit counter is halved; the side conditions keep `now`,
`lastRead` and the ttl inside int64, where Go's wrapping arithmetic
agrees with the mathematical values.  Without the overflow bound the
stated equivalence is false (see the counterexample). -/
theorem claim_C8_eviction (now : Int) (uid : String) (e : trackerState)
    (hnow0 : 0 ≤ now) (hnow1 : now < 2 ^ 63)
    (hlr0 : 0 ≤ e.lastRead) (hlr1 : e.lastRead < 2 ^ 63)
    (httl : ttlBase + (e.hitCount : Int) * ttlHitBonus < 2 ^ 63) :
    ∀ data : List (String × trackerState),
      cacheNodupKeys data = true → cacheLookup data uid = some e →
      cacheLookup (evictCold now data) uid =
        (if now - e.lastRead > ttlBase + (e.hitCount : Int) * ttlHitBonus
         then none
         else some { e with hitCount := e.hitCount / 2 }) := by
  intro data
  induction data with
  | nil => intro _ hfound; simp [cacheLookup] at hfound
  | cons p rest ih =>
    obtain ⟨k, e'⟩ := p
    intro hnodup hfound
    simp only [cacheNodupKeys, Bool.and_eq_true,
      Option.isNone_iff_eq_none] at hnodup
    simp only [cacheLookup] at hfound
    by_cases hk : k = uid
    · subst hk
      rw [if_pos rfl] at hfound
      have he : e' = e := Option.some.inj hfound
      subst he
      rw [evictCold_cons,
        satSub_eq_sub now e'.lastRead (by omega)
          (by simp only [ttlBase, ttlHitBonus] at httl
              have : 0 ≤ (e'.hitCount : Int) * (4 * 1000000000) := by
                positivity
              omega),
        ttl_wrap_eq e'.hitCount httl]
      by_cases hcond :
          now - e'.lastRead > ttlBase + (e'.hitCount : Int) * ttlHitBonus
      · rw [if_pos hcond, if_pos hcond]
        exact cacheLookup_evictCold_none now rest k hnodup.1
      · rw [if_neg hcond, if_neg hcond]
        simp [cacheLookup]
    · rw [if_neg hk] at hfound
      rw [evictCold_cons]
      split
      · exact ih hnodup.2 hfound
      · rw [show cacheLookup
            ((k, { e' with hitCount := e'.hitCount / 2 })
              :: evictCold now rest) uid
            = cacheLookup (evictCold now rest) uid from by
          simp only [cacheLookup, if_neg hk]]
        exact ih hnodup.2 hfound

/-- C8, witness: the amended sweep characterization at a stale zero-hit
entry (age 50 s > ttl 40 s: evicted) and at a fresh six-hit entry (age
30 s <= ttl 64 s: kept, hit counter halved to 3). -/
theorem claim_C8_witness :
    cacheLookup (evictCold 50000000000 [("a", ⟨.nil, 0, 0, 0⟩)]) "a"
      = (if (50000000000 : Int) - (0 : Int)
            > ttlBase + ((0 : Nat) : Int) * ttlHitBonus
         then none else some ⟨.nil, 0, 0, 0⟩)
    ∧ cacheLookup
        (evictCold 50000000000 [("b", ⟨.nil, 7, 20000000000, 6⟩)]) "b"
      = (if (50000000000 : Int) - (20000000000 : Int)
            > ttlBase + ((6 : Nat) : Int) * ttlHitBonus
         then none else some ⟨.nil, 7, 20000000000, 3⟩) :=
  ⟨claim_C8_eviction 50000000000 "a" ⟨.nil, 0, 0, 0⟩
      (by decide) (by decide) (by decide) (by decide) (by decide)
      [("a", ⟨.nil, 0, 0, 0⟩)] (by decide) (by decide),
    claim_C8_eviction 50000000000 "b" ⟨.nil, 7, 20000000000, 6⟩
      (by decide) (by decide) (by decide) (by decide) (by decide)
      [("b", ⟨.nil, 7, 20000000000, 6⟩)] (by decide) (by decide)⟩

end Loog

namespace Loog

/-- C9: the cache never exceeds `maxTrackedEntries` (100000): `set`
inserts or overwrites only while the count is strictly below the bound,
so a set on a map at or above the bound changes nothing — even for a uid
already present, which would not have grown the map. -/
theorem claim_C9_bounded (data : List (String × trackerState))
    (uid : String) (ts : trackerState) :
    (data.length ≤ maxTrackedEntries →
      (cacheSet data uid ts).length ≤ maxTrackedEntries)
    ∧ (maxTrackedEntries ≤ data.length → cacheSet data uid ts = data) := by
  have hlen : ∀ d : List (String × trackerState),
      (cacheInsert d uid ts).length ≤ d.length + 1 := by
    intro d
    induction d with
    | nil => simp [cacheInsert]
    | cons p rest ih =>
      obtain ⟨k, e⟩ := p
      simp only [cacheInsert]
      split
      · simp
      · simp only [List.length_cons]
        omega
  constructor
  · intro h
    by_cases hc : data.length < maxTrackedEntries
    · simp only [cacheSet]
      rw [if_pos hc]
      have := hlen data
      omega
    · simp only [cacheSet]
      rw [if_neg hc]
      exact h
  · intro h
    simp only [cacheSet]
    rw [if_neg (by omega)]

/-- C9, witness: the bound theorem at a one-entry cache (set keeps the
count within bound) and at a cache holding exactly 100000 entries (set is
a no-op, even for the uid already present). -/
theorem claim_C9_witness :
    (([("a", (⟨.nil, 0, 0, 0⟩ : trackerState))].length ≤ maxTrackedEntries)
      ∧ (cacheSet [("a", ⟨.nil, 0, 0, 0⟩)] "b" ⟨.nil, 0, 0, 0⟩).length
          ≤ maxTrackedEntries)
    ∧ (maxTrackedEntries ≤ (List.replicate 100000
          (("a", (⟨.nil, 0, 0, 0⟩ : trackerState)))).length
      ∧ cacheSet (List.replicate 100000 ("a", ⟨.nil, 0, 0, 0⟩)) "a"
          ⟨.nil, 0, 0, 0⟩
        = List.replicate 100000 ("a", ⟨.nil, 0, 0, 0⟩)) :=
  ⟨⟨by decide,
    (claim_C9_bounded [("a", ⟨.nil, 0, 0, 0⟩)] "b" ⟨.nil, 0, 0, 0⟩).1
      (by decide)⟩,
   ⟨by rw [List.length_replicate]; decide,
    (claim_C9_bounded (List.replicate 100000 ("a", ⟨.nil, 0, 0, 0⟩)) "a"
        ⟨.nil, 0, 0, 0⟩).2
      (by rw [List.length_replicate]; decide)⟩⟩

end Loog

namespace Loog

/-- Every digit the formatter's division chain produces is below 16. -/
theorem hexDigitsAux_lt : ∀ fuel n d, d ∈ hexDigitsAux fuel n → d < 16 := by
  intro fuel
  induction fuel with
  | zero => intro n d h; simp [hexDigitsAux] at h
  | succ f ih =>
    intro n d h
    by_cases h0 : n = 0
    · subst h0; simp [hexDigitsAux] at h
    · rw [show hexDigitsAux (f + 1) n = n % 16 :: hexDigitsAux f (n / 16)
          from by simp [hexDigitsAux, h0]] at h
      rcases List.mem_cons.mp h with h1 | h2
      · exact h1 ▸ Nat.mod_lt n (by decide)
      · exact ih (n / 16) d h2

/-- With enough fuel, the little-endian base-16 digits evaluate back to
the number. -/
theorem hexDigitsAux_ofDigits :
    ∀ fuel n, n ≤ fuel → Nat.ofDigits 16 (hexDigitsAux fuel n) = n := by
  intro fuel
  induction fuel with
  | zero => intro n h; interval_cases n; simp [hexDigitsAux]
  | succ f ih =>
    intro n h
    by_cases h0 : n = 0
    · subst h0; simp [hexDigitsAux]
    · rw [show hexDigitsAux (f + 1) n = n % 16 :: hexDigitsAux f (n / 16)
          from by simp [hexDigitsAux, h0]]
      rw [Nat.ofDigits_cons, ih (n / 16) (by omega)]
      omega

/-- `hexCharVal` inverts `hexDigitChar` on the sixteen digit values. -/
theorem hexCharVal_hexDigitChar (d : Nat) (h : d < 16) :
    hexCharVal (hexDigitChar d) = d := by
  interval_cases d <;> decide

/-- The sixteen digit characters all belong to the hex alphabet. -/
theorem hexDigitChar_mem (d : Nat) (h : d < 16) :
    hexDigitChar d ∈ hexAlphabet := by
  interval_cases d <;> decide

/-- The accumulating fold of `hexValue` over a rendered big-endian digit
list, against `Nat.ofDigits` of the little-endian digits. -/
theorem hexValue_fold (l : List Nat) (hl : ∀ d ∈ l, d < 16) : ∀ a : Nat,
    List.foldl (fun acc c => 16 * acc + hexCharVal c) a (l.map hexDigitChar)
      = a * 16 ^ l.length + Nat.ofDigits 16 l.reverse := by
  induction l with
  | nil => intro a; simp
  | cons d rest ih =>
    intro a
    have hd : hexCharVal (hexDigitChar d) = d :=
      hexCharVal_hexDigitChar d (hl d (List.mem_cons_self d rest))
    rw [List.map_cons, List.foldl_cons, hd,
      ih (fun x hx => hl x (List.mem_cons_of_mem d hx)) (16 * a + d),
      List.reverse_cons, Nat.ofDigits_append, Nat.ofDigits_cons,
      Nat.ofDigits_nil, List.length_reverse, List.length_cons]
    ring

/-- Leading `0` characters contribute nothing to the fold from 0. -/
theorem foldl_hex_zeros : ∀ k : Nat,
    List.foldl (fun acc c => 16 * acc + hexCharVal c) 0
      (List.replicate k (Char.ofNat 48)) = 0 := by
  intro k
  induction k with
  | zero => rfl
  | succ n ih =>
    have h0 : 16 * 0 + hexCharVal (Char.ofNat 48) = 0 := by decide
    rw [List.replicate_succ, List.foldl_cons]
    exact h0 ▸ ih

/-- C10: for every RevisionID value, the external rendering
(`fmt.Sprintf` with `%04x`) is at least four characters long, uses only
lowercase hexadecimal digit characters, and reads back as the value. -/
theorem claim_C10_hex_rendering (id : Nat) :
    4 ≤ (revisionIDString id).length
    ∧ (∀ c ∈ (revisionIDString id).data, c ∈ hexAlphabet)
    ∧ hexValue (revisionIDString id).data = id := by
  have hdata : (revisionIDString id).data
      = List.replicate (4 - (hexChars id).length) (Char.ofNat 48)
        ++ hexChars id := rfl
  have hleneq : (revisionIDString id).length
      = (4 - (hexChars id).length) + (hexChars id).length := by
    rw [show (revisionIDString id).length = (revisionIDString id).data.length
        from rfl, hdata, List.length_append, List.length_replicate]
  refine ⟨by omega, ?_, ?_⟩
  · intro c hc
    rw [hdata] at hc
    rcases List.mem_append.mp hc with h1 | h2
    · rw [List.eq_of_mem_replicate h1]
      decide
    · simp only [hexChars, List.mem_map] at h2
      obtain ⟨d, hd, hdc⟩ := h2
      exact hdc ▸ hexDigitChar_mem d
        (hexDigitsAux_lt (id + 1) id d (List.mem_reverse.mp hd))
  · rw [hdata]
    simp only [hexValue, List.foldl_append, foldl_hex_zeros, hexChars]
    rw [hexValue_fold ((hexDigitsAux (id + 1) id).reverse)
        (fun d hd => hexDigitsAux_lt (id + 1) id d (List.mem_reverse.mp hd))
        0,
      List.reverse_reverse, hexDigitsAux_ofDigits (id + 1) id (by omega)]
    ring

end Loog
